import Mathlib

/-!
Verification of the beat-synced cut placement engine of this repository
(`src/utils/audioTrimmer.ts`): measure detection, drop detection, candidate
building, constrained cut selection, equidistant fallback and duration
optimization, shallowly embedded over `ℚ` (JS numbers idealized as exact
rationals; the spec's floating-point tolerance ε is irrelevant at this level).

`generateRandomCuts` returns `Except String (List CutMarker)`: the backfill
loop of the source calls `Array.prototype.reduce` with no initial value on a
filtered array, which throws a `TypeError` when that array is empty; the
`.error` constructor models exactly that exception. All other paths are total.
-/

attribute [local semireducible] Rat.add Rat.mul Rat.inv Rat.sub Rat.ofScientific

namespace Snapcut

/-- Beat strength class, `type: 'weak' | 'medium' | 'strong'` of the source. -/
inductive BeatType where
  | weak
  | medium
  | strong
deriving DecidableEq, Repr

/-- `BeatMarker { time, intensity, type }` from `src/types`. -/
structure BeatMarker where
  time : ℚ
  intensity : ℚ
  type : BeatType
deriving DecidableEq, Repr

/-- `MeasureInfo { startTime, bpm, confidence }` of `audioTrimmer.ts`. -/
structure MeasureInfo where
  startTime : ℚ
  bpm : ℚ
  confidence : ℚ
deriving DecidableEq, Repr

/-- `DropMarker extends BeatMarker { isDrop, silenceDuration }`. -/
structure DropMarker where
  time : ℚ
  intensity : ℚ
  type : BeatType
  isDrop : Bool
  silenceDuration : ℚ
deriving DecidableEq, Repr

/-- The `reason` tag of a candidate cut position. -/
inductive CutReason where
  | drop
  | measure_start
  | measure_mid
  | strong_beat
deriving DecidableEq, Repr

/-- A candidate from the prioritised list built in `generateRandomCuts`
(the source spreads the underlying beat into the record; only the fields
read downstream are kept: `time` is already lead-offset). -/
structure Candidate where
  time : ℚ
  intensity : ℚ
  type : BeatType
  priority : ℚ
  reason : CutReason
deriving DecidableEq, Repr

/-- `CutMarker { id, time, color, duration }`; `crypto.randomUUID()` is an
opaque unique identifier, modelled as the index at which the cut was pushed
(unique within one generation call, which is all the source requires). -/
structure CutMarker where
  id : ℕ
  time : ℚ
  color : String
  duration : ℚ
deriving DecidableEq, Repr

/-- The fixed 6-color palette `COLORS` of `audioTrimmer.ts`. -/
def COLORS : List String := ["#F97316", "#3B82F6", "#10B981", "#8B5CF6", "#EF4444", "#F59E0B"]

/-- `COLORS[i % COLORS.length]`. -/
def colorAt (i : ℕ) : String := COLORS.getD (i % COLORS.length) ""

/-- `beatMarkers.filter(beat => beat.type === 'strong')`. -/
def strongOnly (l : List BeatMarker) : List BeatMarker :=
  l.filter fun b => decide (b.type = BeatType.strong)

/-- The consecutive-difference scan of `detectMeasures`: intervals between
adjacent beats of `l`, kept only when they lie strictly between `lo` and `hi`. -/
def consecutiveIntervals (lo hi : ℚ) : List BeatMarker → List ℚ
  | [] => []
  | [_] => []
  | a :: b :: rest =>
    (if lo < b.time - a.time ∧ b.time - a.time < hi then [b.time - a.time] else []) ++
      consecutiveIntervals lo hi (b :: rest)

/-- The clustering loop of `detectMeasures` over the ascending-sorted interval
list: `prev` is the previously seen value, a gap `≥ 0.3` closes the current
cluster.  (The source's `if (currentCluster.length >= 1)` guard is always true
since a cluster always holds at least the value that opened it.) -/
def clusterLoop : List ℚ → ℚ → List ℚ → List (List ℚ) → List (List ℚ)
  | [], _, currentCluster, clusters => clusters ++ [currentCluster]
  | v :: rest, prev, currentCluster, clusters =>
    if v - prev < 0.3 then clusterLoop rest v (currentCluster ++ [v]) clusters
    else clusterLoop rest v [v] (clusters ++ [currentCluster])

/-- The measure-grid walk of `detectMeasures`: starting from expected downbeat
`expected`, accept a strong beat when it is within `avg * 0.3` of the expected
slot; on acceptance the source sets `expectedNextMeasure = beat.time + avg`
(it resynchronises to the accepted beat's actual time). -/
def measureWalk (avg bpm : ℚ) : ℚ → List BeatMarker → List MeasureInfo
  | _, [] => []
  | expected, b :: rest =>
    let timeDiff := |b.time - expected|
    if timeDiff < avg * 0.3 then
      ⟨b.time, bpm, max 0.1 (1 - timeDiff / avg)⟩ :: measureWalk avg bpm (b.time + avg) rest
    else
      measureWalk avg bpm expected rest

/-- `detectMeasures` of `audioTrimmer.ts`. -/
def detectMeasures (beatMarkers : List BeatMarker) : List MeasureInfo :=
  if beatMarkers.length < 8 then []
  else
    -- allBeats / allIntervals are computed by the source but never consumed
    let _allBeats := beatMarkers.filter fun b => decide (b.intensity > 0.1)
    let _allIntervals := consecutiveIntervals 0.15 2 _allBeats
    let strongBeats := strongOnly beatMarkers
    if strongBeats.length < 3 then []
    else
      let measureIntervals := consecutiveIntervals 0.8 6 strongBeats
      if measureIntervals.length < 2 then []
      else
        let sortedIntervals := List.insertionSort (fun a b : ℚ => a ≤ b) measureIntervals
        let clusters : List (List ℚ) :=
          match sortedIntervals with
          | [] => []
          | v :: rest => clusterLoop rest v [v] []
        let dominantCluster :=
          clusters.foldl (fun largest current =>
            if largest.length < current.length then current else largest) ([] : List ℚ)
        if dominantCluster.length < 2 then []
        else
          let averageMeasureDuration :=
            dominantCluster.foldl (· + ·) 0 / (dominantCluster.length : ℚ)
          let bpm := 60 / (averageMeasureDuration / 4)
          let measures :=
            match strongBeats with
            | [] => []
            | b0 :: _ => measureWalk averageMeasureDuration bpm b0.time strongBeats
          measures.filter fun mi => decide (mi.confidence > 0.4)

/-- The pairwise scan of `detectDrops`: `prev` is the previous strong beat. -/
def detectDropsAux : BeatMarker → List BeatMarker → List DropMarker
  | _, [] => []
  | prev, b :: rest =>
    let silenceDuration := b.time - prev.time
    (if silenceDuration ≥ 1.2 ∧ b.intensity > 0.2
      then [⟨b.time, b.intensity, b.type, true, silenceDuration⟩] else []) ++
      detectDropsAux b rest

/-- `detectDrops` of `audioTrimmer.ts` (minimum silence 1.2s, intensity > 0.2). -/
def detectDrops (beatMarkers : List BeatMarker) : List DropMarker :=
  match strongOnly beatMarkers with
  | [] => []
  | p :: rest => detectDropsAux p rest

/-- `beatMarkers.filter(beat => beat.time > startTime && beat.time < endTime)`. -/
def availableBeats (startTime endTime : ℚ) (beatMarkers : List BeatMarker) : List BeatMarker :=
  beatMarkers.filter fun b => decide (startTime < b.time ∧ b.time < endTime)

/-- The drop candidate pushed in step 1 of the candidate builder:
cut 50ms before the drop, clamped to `startTime + 0.05`. -/
def mkDropCand (startTime : ℚ) (d : DropMarker) : Candidate :=
  ⟨max (startTime + 0.05) (d.time - 0.05), d.intensity, d.type, 100, CutReason.drop⟩

/-- Step 1 of the candidate builder: drops, priority 100, always pushed when
inside the active region (never deduplicated against anything). -/
def pushDropCands (startTime endTime : ℚ) : List DropMarker → List Candidate → List Candidate
  | [], cands => cands
  | d :: rest, cands =>
    pushDropCands startTime endTime rest
      (if startTime < d.time ∧ d.time < endTime then cands ++ [mkDropCand startTime d]
       else cands)

/-- Step 2 of the candidate builder: measure starts, priority 80–100,
30ms lead, deduplicated against any candidate within 0.1s. -/
def pushMeasureStartCands (startTime : ℚ) (avail : List BeatMarker) :
    List MeasureInfo → List Candidate → List Candidate
  | [], cands => cands
  | mi :: rest, cands =>
    pushMeasureStartCands startTime avail rest
      (match avail.find? (fun b => decide (|b.time - mi.startTime| < 0.2)) with
       | some nearestBeat =>
         if cands.any (fun c => decide (|c.time - nearestBeat.time| < 0.1)) then cands
         else cands ++ [⟨max (startTime + 0.05) (nearestBeat.time - 0.03), nearestBeat.intensity,
           nearestBeat.type, 80 + mi.confidence * 20, CutReason.measure_start⟩]
       | none => cands)

/-- Step 3 of the candidate builder: measure midpoints hit by a strong beat,
priority 60–80, 30ms lead, deduplicated against any candidate within 0.1s. -/
def pushMeasureMidCands (startTime : ℚ) (avail : List BeatMarker) (avgMeasureDuration : ℚ) :
    List MeasureInfo → List Candidate → List Candidate
  | [], cands => cands
  | mi :: rest, cands =>
    pushMeasureMidCands startTime avail avgMeasureDuration rest
      (let midMeasureTime := mi.startTime + avgMeasureDuration / 2
       match avail.find? (fun b =>
           decide (|b.time - midMeasureTime| < avgMeasureDuration * 0.3 ∧
             b.type = BeatType.strong)) with
       | some nearestBeat =>
         if cands.any (fun c => decide (|c.time - nearestBeat.time| < 0.1)) then cands
         else cands ++ [⟨max (startTime + 0.05) (nearestBeat.time - 0.03), nearestBeat.intensity,
           nearestBeat.type, 60 + nearestBeat.intensity * 20, CutReason.measure_mid⟩]
       | none => cands)

/-- Step 4 of the candidate builder: remaining strong beats, priority 40–60,
20ms lead, deduplicated against any candidate within 0.1s. -/
def pushStrongBeatCands (startTime : ℚ) : List BeatMarker → List Candidate → List Candidate
  | [], cands => cands
  | b :: rest, cands =>
    pushStrongBeatCands startTime rest
      (if cands.any (fun c => decide (|c.time - b.time| < 0.1)) then cands
       else cands ++ [⟨max (startTime + 0.05) (b.time - 0.02), b.intensity, b.type,
         40 + b.intensity * 20, CutReason.strong_beat⟩])

/-- The full candidate builder of `generateRandomCuts` (steps 1–4, in source
order; step 3 runs only when at least one measure was detected and derives
`avgMeasureDuration` from the spacing of the detected measures). -/
def buildCandidates (startTime endTime activeDuration : ℚ) (measures : List MeasureInfo)
    (drops : List DropMarker) (avail : List BeatMarker) : List Candidate :=
  let afterDrops := pushDropCands startTime endTime drops []
  let afterStarts := pushMeasureStartCands startTime avail measures afterDrops
  let afterMids :=
    match measures with
    | [] => afterStarts
    | m0 :: _ =>
      let avgMeasureDuration :=
        if 1 < measures.length then
          ((measures.getLastD m0).startTime - m0.startTime) / ((measures.length : ℚ) - 1)
        else activeDuration / max 1 (measures.length : ℚ)
      pushMeasureMidCands startTime avail avgMeasureDuration measures afterStarts
  pushStrongBeatCands startTime (avail.filter fun b => decide (b.type = BeatType.strong)) afterMids

/-- The comparator `(a, b) => b.priority - a.priority`: descending by priority.
`Array.prototype.sort` is stable, as is `List.insertionSort` with this
non-strict relation. -/
def priorityGE (a b : Candidate) : Prop := b.priority ≤ a.priority

instance : DecidableRel priorityGE := fun a b => inferInstanceAs (Decidable (_ ≤ _))

instance : IsTotal Candidate priorityGE := ⟨fun a b => (le_total b.priority a.priority)⟩

instance : IsTrans Candidate priorityGE := ⟨fun _ _ _ h1 h2 => le_trans h2 h1⟩

/-- The comparator `(a, b) => a.time - b.time`: ascending by time (stable). -/
def cutTimeLE (a b : CutMarker) : Prop := a.time ≤ b.time

instance : DecidableRel cutTimeLE := fun a b => inferInstanceAs (Decidable (_ ≤ _))

instance : IsTotal CutMarker cutTimeLE := ⟨fun a b => le_total a.time b.time⟩

instance : IsTrans CutMarker cutTimeLE := ⟨fun _ _ _ h1 h2 => le_trans h1 h2⟩

/-- Phase 1 of the cut selector: every `reason === 'drop'` candidate is pushed
unconditionally (no spacing check), as long as fewer than `cutsNeeded` cuts
are selected. -/
def addForcedDrops (cutsNeeded : ℕ) : List Candidate → List CutMarker → List CutMarker
  | [], cuts => cuts
  | c :: rest, cuts =>
    addForcedDrops cutsNeeded rest
      (if cuts.length < cutsNeeded then
        cuts ++ [⟨cuts.length, c.time, colorAt cuts.length, 1⟩]
       else cuts)

/-- Closed form of `addForcedDrops`: the cuts produced from a candidate list
when pushing starts at absolute position `k`. -/
def mkCutsFrom (k : ℕ) : List Candidate → List CutMarker
  | [] => []
  | c :: rest => ⟨k, c.time, colorAt k, 1⟩ :: mkCutsFrom (k + 1) rest

/-- Phase 2 of the cut selector: walk the remaining candidates in priority
order; accept one only when it is at distance `≥ minCutInterval` from every
already selected cut; stop as soon as `cutsNeeded` cuts are selected. -/
def walkCandidates (cutsNeeded : ℕ) (minCutInterval : ℚ) :
    List Candidate → List CutMarker → List CutMarker
  | [], cuts => cuts
  | c :: rest, cuts =>
    if cuts.length ≥ cutsNeeded then cuts
    else if c.reason = CutReason.drop then walkCandidates cutsNeeded minCutInterval rest cuts
    else if cuts.any (fun cut => decide (|cut.time - c.time| < minCutInterval)) then
      walkCandidates cutsNeeded minCutInterval rest cuts
    else
      walkCandidates cutsNeeded minCutInterval rest
        (cuts ++ [⟨cuts.length, c.time, colorAt cuts.length, 1⟩])

/-- The candidate list of one invocation: built from the detected measures and
drops of the active-region beats, sorted by priority (descending, stable). -/
def candidatesOf (startTime endTime activeDuration : ℚ) (avail : List BeatMarker) :
    List Candidate :=
  List.insertionSort priorityGE
    (buildCandidates startTime endTime activeDuration (detectMeasures avail)
      (detectDrops avail) avail)

/-- `forcedCuts`: the drop candidates, in sorted order. -/
def forcedOf (startTime endTime activeDuration : ℚ) (avail : List BeatMarker) :
    List Candidate :=
  (candidatesOf startTime endTime activeDuration avail).filter
    fun c => decide (c.reason = CutReason.drop)

/-- Phases 1+2 of the cut selector, applied to the sorted candidate list
exactly as in the source (`forcedOf` is the drop-filtered sorted list). -/
def selectedAfterWalk (startTime endTime activeDuration : ℚ) (cutsNeeded : ℕ)
    (minCutInterval : ℚ) (avail : List BeatMarker) : List CutMarker :=
  walkCandidates cutsNeeded minCutInterval
    (candidatesOf startTime endTime activeDuration avail)
    (addForcedDrops cutsNeeded (forcedOf startTime endTime activeDuration avail) [])

/-- Phase 3 of the cut selector (the `while (selectedCuts.length < cutsNeeded)`
backfill).  The source computes
`availableBeats.filter(...).reduce((nearest, current) => ...)` with no initial
value: on an empty filtered array `reduce` throws a `TypeError` (modelled as
`.error`); on a non-empty one it returns a beat object, which is always
truthy, so the source's `else` branch (synthetic cut at `idealTime`) is
unreachable.  The loop adds exactly one cut per iteration; `fuel` bounds
the recursion and is never exhausted when initialised with `cutsNeeded`.
`nearestBeatTo` is the `reduce` body: the nearest beat (by absolute distance
to `idealTime`) among `b :: bs`, ties keeping the earlier beat. -/
def nearestBeatTo (idealTime : ℚ) (b : BeatMarker) (bs : List BeatMarker) : BeatMarker :=
  bs.foldl (fun nearest current =>
    if |current.time - idealTime| < |nearest.time - idealTime| then current else nearest) b

def backfillCuts (startTime activeDuration minCutInterval : ℚ) (cutsNeeded : ℕ)
    (avail : List BeatMarker) : ℕ → List CutMarker → Except String (List CutMarker)
  | 0, cuts => .ok cuts
  | fuel + 1, cuts =>
    if cuts.length < cutsNeeded then
      let missingIndex := cuts.length
      let idealTime := startTime + ((missingIndex : ℚ) + 1) * activeDuration / ((cutsNeeded : ℚ) + 1)
      match avail.filter (fun b =>
          !cuts.any fun cut => decide (|cut.time - b.time| < minCutInterval)) with
      | [] => .error "TypeError: Reduce of empty array with no initial value"
      | b :: bs =>
        let nearestBeat := nearestBeatTo idealTime b bs
        backfillCuts startTime activeDuration minCutInterval cutsNeeded avail fuel
          (cuts ++ [⟨cuts.length, max (startTime + 0.05) (nearestBeat.time - 0.02),
            colorAt missingIndex, 1⟩])
    else .ok cuts

/-- `generateEquidistantCuts` of `audioTrimmer.ts`: `count` cuts evenly spaced
at `interval = duration / (count + 1)`. -/
def generateEquidistantCuts (startTime endTime : ℚ) (count : ℕ) : List CutMarker :=
  let duration := endTime - startTime
  let interval := duration / ((count : ℚ) + 1)
  (List.range count).map fun i =>
    ⟨i, startTime + interval * ((i : ℚ) + 1), colorAt i, min 1 (interval * 0.8)⟩

/-- The inner map of `optimizeCutDurations`, over the time-sorted list:
`duration = min(duration, max(0.3, gapToNext - 0.1))` with the gap measured
to the next cut, or to `endTime` for the last cut. -/
def optimizeSorted (endTime : ℚ) : List CutMarker → List CutMarker
  | [] => []
  | [c] => [{ c with duration := min c.duration (max 0.3 (endTime - c.time - 0.1)) }]
  | c :: c2 :: rest =>
    { c with duration := min c.duration (max 0.3 (c2.time - c.time - 0.1)) } ::
      optimizeSorted endTime (c2 :: rest)

/-- `optimizeCutDurations` of `audioTrimmer.ts`: sort a copy by time, then
clamp each duration by the gap to the next cut. -/
def optimizeCutDurations (cuts : List CutMarker) (endTime : ℚ) : List CutMarker :=
  optimizeSorted endTime (List.insertionSort cutTimeLE cuts)

/-- The main path of `generateRandomCuts` once the guards have passed and
beats are available: select cuts (phases 1–3), sort by time, optimize. -/
def mainPath (startTime endTime : ℚ) (cutsNeeded : ℕ) (minCutInterval : ℚ)
    (avail : List BeatMarker) : Except String (List CutMarker) :=
  match backfillCuts startTime (endTime - startTime) minCutInterval cutsNeeded avail cutsNeeded
      (selectedAfterWalk startTime endTime (endTime - startTime) cutsNeeded minCutInterval avail) with
  | .error msg => .error msg
  | .ok sel => .ok (optimizeCutDurations (List.insertionSort cutTimeLE sel) endTime)

/-- `generateRandomCuts` of `audioTrimmer.ts`.  `planCount < 2` and
insufficient active duration return the empty list; an empty active-region
beat list routes to the equidistant fallback; otherwise the main
candidate/selector path runs (which can throw, see `backfillCuts`).
`prioritizeStrongBeats` is accepted and ignored, as in the source. -/
def generateRandomCuts (startTime endTime : ℚ) (planCount : ℤ) (beatMarkers : List BeatMarker)
    (minCutInterval : ℚ) (pStrong : Bool) : Except String (List CutMarker) :=
  if planCount < 2 then .ok []
  else if endTime - startTime < (((planCount - 1).toNat : ℚ)) * minCutInterval then .ok []
  else if availableBeats startTime endTime beatMarkers = [] then
    .ok (generateEquidistantCuts startTime endTime (planCount - 1).toNat)
  else
    mainPath startTime endTime (planCount - 1).toNat minCutInterval
      (availableBeats startTime endTime beatMarkers)

/-- Modelled from the spec (§4.1 step 6), for comparison with the source:
identical to `measureWalk` except that on acceptance the expected downbeat
advances by `expectedNextMeasure += averageMeasureDuration` from the previous
expected position, i.e. the grid does **not** resynchronise to the accepted
beat's actual time. -/
def measureWalkSpecGrid (avg bpm : ℚ) : ℚ → List BeatMarker → List MeasureInfo
  | _, [] => []
  | expected, b :: rest =>
    let timeDiff := |b.time - expected|
    if timeDiff < avg * 0.3 then
      ⟨b.time, bpm, max 0.1 (1 - timeDiff / avg)⟩ :: measureWalkSpecGrid avg bpm (expected + avg) rest
    else
      measureWalkSpecGrid avg bpm expected rest

/-- Modelled from the spec: `detectMeasures` with the non-resynchronising
grid walk of §4.1 step 6 (`measureWalkSpecGrid`); everything else identical
to the source. -/
def detectMeasuresSpecGrid (beatMarkers : List BeatMarker) : List MeasureInfo :=
  if beatMarkers.length < 8 then []
  else
    let strongBeats := strongOnly beatMarkers
    if strongBeats.length < 3 then []
    else
      let measureIntervals := consecutiveIntervals 0.8 6 strongBeats
      if measureIntervals.length < 2 then []
      else
        let sortedIntervals := List.insertionSort (fun a b : ℚ => a ≤ b) measureIntervals
        let clusters : List (List ℚ) :=
          match sortedIntervals with
          | [] => []
          | v :: rest => clusterLoop rest v [v] []
        let dominantCluster :=
          clusters.foldl (fun largest current =>
            if largest.length < current.length then current else largest) ([] : List ℚ)
        if dominantCluster.length < 2 then []
        else
          let averageMeasureDuration :=
            dominantCluster.foldl (· + ·) 0 / (dominantCluster.length : ℚ)
          let bpm := 60 / (averageMeasureDuration / 4)
          let measures :=
            match strongBeats with
            | [] => []
            | b0 :: _ => measureWalkSpecGrid averageMeasureDuration bpm b0.time strongBeats
          measures.filter fun mi => decide (mi.confidence > 0.4)

/-- Projection used to state frame conditions: everything except `duration`. -/
def stripDuration (c : CutMarker) : ℕ × ℚ × String := (c.id, c.time, c.color)

/-- Shape of every candidate time: some in-region anchor time `t`, minus a
positive lead offset, clamped to `startTime + 0.05`. -/
def candShape (s e : ℚ) (c : Candidate) : Prop :=
  ∃ t δ, s < t ∧ t < e ∧ 0 < δ ∧ c.time = max (s + 0.05) (t - δ)

instance : DecidableEq (Except String (List CutMarker)) := fun a b =>
  match a, b with
  | .ok x, .ok y => decidable_of_iff (x = y) (by simp)
  | .error x, .error y => decidable_of_iff (x = y) (by simp)
  | .ok _, .error _ => isFalse (by simp)
  | .error _, .ok _ => isFalse (by simp)

/-! ### Region filter and drop detector lemmas -/

theorem mem_availableBeats {s e : ℚ} {l : List BeatMarker} {b : BeatMarker}
    (h : b ∈ availableBeats s e l) : s < b.time ∧ b.time < e := by
  have hp := List.of_mem_filter h
  simpa using hp

theorem availableBeats_sorted {s e : ℚ} {l : List BeatMarker}
    (h : List.Pairwise (fun a b : BeatMarker => a.time ≤ b.time) l) :
    List.Pairwise (fun a b : BeatMarker => a.time ≤ b.time) (availableBeats s e l) :=
  h.sublist (List.filter_sublist l)

theorem strongOnly_sorted {l : List BeatMarker}
    (h : List.Pairwise (fun a b : BeatMarker => a.time ≤ b.time) l) :
    List.Pairwise (fun a b : BeatMarker => a.time ≤ b.time) (strongOnly l) :=
  h.sublist (List.filter_sublist l)

theorem strongOnly_subset {l : List BeatMarker} : strongOnly l ⊆ l :=
  fun _ hb => List.mem_of_mem_filter hb

theorem detectDropsAux_time_mem {p : BeatMarker} {l : List BeatMarker} {d : DropMarker}
    (h : d ∈ detectDropsAux p l) : ∃ b ∈ l, d.time = b.time := by
  induction l generalizing p with
  | nil => simp [detectDropsAux] at h
  | cons b rest ih =>
    simp only [detectDropsAux, List.mem_append] at h
    rcases h with h1 | h2
    · refine ⟨b, List.mem_cons_self b rest, ?_⟩
      split at h1
      · rw [List.mem_singleton.1 h1]
      · simp at h1
    · obtain ⟨b', hb', ht⟩ := ih h2
      exact ⟨b', List.mem_cons_of_mem b hb', ht⟩

theorem detectDrops_time_mem {l : List BeatMarker} {d : DropMarker}
    (h : d ∈ detectDrops l) : ∃ b ∈ l, d.time = b.time := by
  unfold detectDrops at h
  rcases hl : strongOnly l with _ | ⟨p, rest⟩
  · rw [hl] at h; simp at h
  · rw [hl] at h
    obtain ⟨b, hb, ht⟩ := detectDropsAux_time_mem h
    exact ⟨b, strongOnly_subset (hl ▸ List.mem_cons_of_mem p hb), ht⟩

theorem detectDropsAux_gaps {p : BeatMarker} {l : List BeatMarker}
    (h : List.Pairwise (fun a b : BeatMarker => a.time ≤ b.time) (p :: l)) :
    (∀ d ∈ detectDropsAux p l, p.time + 6/5 ≤ d.time) ∧
      List.Pairwise (fun d1 d2 : DropMarker => d1.time + 6/5 ≤ d2.time) (detectDropsAux p l) := by
  induction l generalizing p with
  | nil => simp [detectDropsAux]
  | cons b rest ih =>
    have hpb : p.time ≤ b.time := (List.pairwise_cons.1 h).1 b (List.mem_cons_self b rest)
    obtain ⟨ihAll, ihPw⟩ := ih (List.pairwise_cons.1 h).2
    have h12 : (1.2 : ℚ) = 6/5 := by norm_num
    constructor
    · intro d hd
      simp only [detectDropsAux, List.mem_append] at hd
      rcases hd with h1 | h2
      · split at h1
        case isTrue hc =>
          rw [List.mem_singleton.1 h1]
          have := hc.1
          rw [h12] at this
          simpa using by linarith
        case isFalse => simp at h1
      · have := ihAll d h2
        linarith
    · simp only [detectDropsAux]
      split
      case isTrue hc =>
        refine List.pairwise_cons.2 ⟨?_, ihPw⟩
        intro d hd
        simpa using ihAll d hd
      case isFalse => simpa using ihPw

theorem detectDrops_gaps {l : List BeatMarker}
    (h : List.Pairwise (fun a b : BeatMarker => a.time ≤ b.time) l) :
    List.Pairwise (fun d1 d2 : DropMarker => d1.time + 6/5 ≤ d2.time) (detectDrops l) := by
  unfold detectDrops
  rcases hl : strongOnly l with _ | ⟨p, rest⟩
  · simp
  · exact (detectDropsAux_gaps (hl ▸ strongOnly_sorted h)).2

/-! ### Candidate builder lemmas -/

theorem pushDropCands_eq_map {s e : ℚ} {drops : List DropMarker}
    (h : ∀ d ∈ drops, s < d.time ∧ d.time < e) :
    ∀ cands, pushDropCands s e drops cands = cands ++ drops.map (mkDropCand s) := by
  induction drops with
  | nil => intro cands; simp [pushDropCands]
  | cons d rest ih =>
    intro cands
    rw [pushDropCands, if_pos (h d (List.mem_cons_self d rest)),
      ih (fun x hx => h x (List.mem_cons_of_mem d hx))]
    simp

theorem pushDropCands_shape {s e : ℚ} {drops : List DropMarker} :
    ∀ cands, ∀ c ∈ pushDropCands s e drops cands,
      c ∈ cands ∨ (candShape s e c ∧ c.reason = CutReason.drop) := by
  induction drops with
  | nil => intro cands c hc; exact Or.inl hc
  | cons d rest ih =>
    intro cands c hc
    rw [pushDropCands] at hc
    rcases ih _ c hc with hmem | hshape
    · split at hmem
      case isTrue hcond =>
        rcases List.mem_append.1 hmem with h1 | h2
        · exact Or.inl h1
        · have hceq := List.mem_singleton.1 h2
          subst hceq
          exact Or.inr ⟨⟨d.time, 0.05, hcond.1, hcond.2, by norm_num, rfl⟩, rfl⟩
      case isFalse => exact Or.inl hmem
    · exact Or.inr hshape

theorem pushMeasureStartCands_shape {s e : ℚ} {avail : List BeatMarker}
    (hb : ∀ b ∈ avail, s < b.time ∧ b.time < e) :
    ∀ (ms : List MeasureInfo) cands, ∀ c ∈ pushMeasureStartCands s avail ms cands,
      c ∈ cands ∨ (candShape s e c ∧ c.reason = CutReason.measure_start) := by
  intro ms
  induction ms with
  | nil => intro cands c hc; exact Or.inl hc
  | cons mi rest ih =>
    intro cands c hc
    simp only [pushMeasureStartCands] at hc
    rcases ih _ c hc with hmem | hshape
    · split at hmem
      next nb hfind =>
        split at hmem
        · exact Or.inl hmem
        · rcases List.mem_append.1 hmem with h1 | h2
          · exact Or.inl h1
          · have hnb := hb nb (List.mem_of_find?_eq_some hfind)
            have hceq := List.mem_singleton.1 h2
            subst hceq
            exact Or.inr ⟨⟨nb.time, 0.03, hnb.1, hnb.2, by norm_num, rfl⟩, rfl⟩
      next => exact Or.inl hmem
    · exact Or.inr hshape

theorem pushMeasureMidCands_shape {s e : ℚ} {avail : List BeatMarker} {avg : ℚ}
    (hb : ∀ b ∈ avail, s < b.time ∧ b.time < e) :
    ∀ (ms : List MeasureInfo) cands, ∀ c ∈ pushMeasureMidCands s avail avg ms cands,
      c ∈ cands ∨ (candShape s e c ∧ c.reason = CutReason.measure_mid) := by
  intro ms
  induction ms with
  | nil => intro cands c hc; exact Or.inl hc
  | cons mi rest ih =>
    intro cands c hc
    simp only [pushMeasureMidCands] at hc
    rcases ih _ c hc with hmem | hshape
    · split at hmem
      next nb hfind =>
        split at hmem
        · exact Or.inl hmem
        · rcases List.mem_append.1 hmem with h1 | h2
          · exact Or.inl h1
          · have hnb := hb nb (List.mem_of_find?_eq_some hfind)
            have hceq := List.mem_singleton.1 h2
            subst hceq
            exact Or.inr ⟨⟨nb.time, 0.03, hnb.1, hnb.2, by norm_num, rfl⟩, rfl⟩
      next => exact Or.inl hmem
    · exact Or.inr hshape

theorem pushStrongBeatCands_shape {s e : ℚ} {beats : List BeatMarker}
    (hb : ∀ b ∈ beats, s < b.time ∧ b.time < e) :
    ∀ cands, ∀ c ∈ pushStrongBeatCands s beats cands,
      c ∈ cands ∨ (candShape s e c ∧ c.reason = CutReason.strong_beat) := by
  induction beats with
  | nil => intro cands c hc; exact Or.inl hc
  | cons b rest ih =>
    intro cands c hc
    simp only [pushStrongBeatCands] at hc
    rcases ih (fun x hx => hb x (List.mem_cons_of_mem b hx)) _ c hc with hmem | hshape
    · split at hmem
      · exact Or.inl hmem
      · rcases List.mem_append.1 hmem with h1 | h2
        · exact Or.inl h1
        · have hbb := hb b (List.mem_cons_self b rest)
          have hceq := List.mem_singleton.1 h2
          subst hceq
          exact Or.inr ⟨⟨b.time, 0.02, hbb.1, hbb.2, by norm_num, rfl⟩, rfl⟩
    · exact Or.inr hshape

theorem buildCandidates_shape {s e dur : ℚ} {ms : List MeasureInfo} {drops : List DropMarker}
    {avail : List BeatMarker} (hb : ∀ b ∈ avail, s < b.time ∧ b.time < e) :
    ∀ c ∈ buildCandidates s e dur ms drops avail, candShape s e c := by
  intro c hc
  have hb' : ∀ b ∈ avail.filter (fun b => decide (b.type = BeatType.strong)),
      s < b.time ∧ b.time < e := fun b hbm => hb b (List.mem_of_mem_filter hbm)
  unfold buildCandidates at hc
  rcases pushStrongBeatCands_shape hb' _ c hc with hc2 | hs
  · have hc3 : c ∈ (match ms with
      | [] => pushMeasureStartCands s avail ms (pushDropCands s e drops [])
      | m0 :: _ => pushMeasureMidCands s avail _ ms
          (pushMeasureStartCands s avail ms (pushDropCands s e drops []))) := hc2
    rcases ms with _ | ⟨m0, mrest⟩
    · rcases pushMeasureStartCands_shape hb _ _ c hc3 with hc4 | hs
      · rcases pushDropCands_shape _ c hc4 with hc5 | hs
        · simp at hc5
        · exact hs.1
      · exact hs.1
    · rcases pushMeasureMidCands_shape hb _ _ c hc3 with hc4 | hs
      · rcases pushMeasureStartCands_shape hb _ _ c hc4 with hc5 | hs
        · rcases pushDropCands_shape _ c hc5 with hc6 | hs
          · simp at hc6
          · exact hs.1
        · exact hs.1
      · exact hs.1
  · exact hs.1

theorem candShape_lower {s e : ℚ} {c : Candidate} (h : candShape s e c) :
    s + 0.05 ≤ c.time := by
  obtain ⟨t, δ, _, _, _, heq⟩ := h
  rw [heq]
  exact le_max_left _ _

theorem candShape_upper {s e : ℚ} {c : Candidate} (hse : s + 0.05 < e) (h : candShape s e c) :
    c.time < e := by
  obtain ⟨t, δ, _, hte, hδ, heq⟩ := h
  rw [heq]
  exact max_lt hse (by linarith)

/-! ### Drop-filter decomposition of the candidate list -/

theorem pushMeasureStartCands_filter_drop (s : ℚ) (avail : List BeatMarker) :
    ∀ (ms : List MeasureInfo) (cands : List Candidate),
      (pushMeasureStartCands s avail ms cands).filter (fun c => decide (c.reason = CutReason.drop)) =
        cands.filter (fun c => decide (c.reason = CutReason.drop)) := by
  intro ms
  induction ms with
  | nil => intro cands; rfl
  | cons mi rest ih =>
    intro cands
    simp only [pushMeasureStartCands]
    split
    next nb hfind =>
      split
      · exact ih cands
      · rw [ih]
        simp [List.filter_append]
    next => exact ih cands

theorem pushMeasureMidCands_filter_drop (s : ℚ) (avail : List BeatMarker) (avg : ℚ) :
    ∀ (ms : List MeasureInfo) (cands : List Candidate),
      (pushMeasureMidCands s avail avg ms cands).filter
          (fun c => decide (c.reason = CutReason.drop)) =
        cands.filter (fun c => decide (c.reason = CutReason.drop)) := by
  intro ms
  induction ms with
  | nil => intro cands; rfl
  | cons mi rest ih =>
    intro cands
    simp only [pushMeasureMidCands]
    split
    next nb hfind =>
      split
      · exact ih cands
      · rw [ih]
        simp [List.filter_append]
    next => exact ih cands

theorem pushStrongBeatCands_filter_drop (s : ℚ) :
    ∀ (beats : List BeatMarker) (cands : List Candidate),
      (pushStrongBeatCands s beats cands).filter (fun c => decide (c.reason = CutReason.drop)) =
        cands.filter (fun c => decide (c.reason = CutReason.drop)) := by
  intro beats
  induction beats with
  | nil => intro cands; rfl
  | cons b rest ih =>
    intro cands
    simp only [pushStrongBeatCands]
    split
    · exact ih cands
    · rw [ih]
      simp [List.filter_append]

theorem buildCandidates_filter_drop {s e dur : ℚ} {ms : List MeasureInfo}
    {drops : List DropMarker} {avail : List BeatMarker}
    (h : ∀ d ∈ drops, s < d.time ∧ d.time < e) :
    (buildCandidates s e dur ms drops avail).filter (fun c => decide (c.reason = CutReason.drop)) =
      drops.map (mkDropCand s) := by
  have hmapfilter : (drops.map (mkDropCand s)).filter
      (fun c => decide (c.reason = CutReason.drop)) = drops.map (mkDropCand s) := by
    rw [List.filter_eq_self]
    intro a ha
    obtain ⟨d, _, rfl⟩ := List.mem_map.1 ha
    rfl
  unfold buildCandidates
  rw [pushStrongBeatCands_filter_drop]
  rcases ms with _ | ⟨m0, mrest⟩
  · rw [pushMeasureStartCands_filter_drop, pushDropCands_eq_map h]
    simpa using hmapfilter
  · rw [pushMeasureMidCands_filter_drop, pushMeasureStartCands_filter_drop,
      pushDropCands_eq_map h]
    simpa using hmapfilter

/-! ### Phase 1: forced drops (closed form) -/

theorem addForcedDrops_of_full (n : ℕ) :
    ∀ (forced : List Candidate) (cuts : List CutMarker), n ≤ cuts.length →
      addForcedDrops n forced cuts = cuts := by
  intro forced
  induction forced with
  | nil => intro cuts _; rfl
  | cons c rest ih =>
    intro cuts hn
    rw [addForcedDrops, if_neg (by omega), ih cuts hn]

theorem addForcedDrops_eq (n : ℕ) :
    ∀ (forced : List Candidate) (cuts : List CutMarker),
      addForcedDrops n forced cuts =
        cuts ++ mkCutsFrom cuts.length (forced.take (n - cuts.length)) := by
  intro forced
  induction forced with
  | nil => intro cuts; simp [addForcedDrops, mkCutsFrom]
  | cons c rest ih =>
    intro cuts
    by_cases hn : cuts.length < n
    · rw [addForcedDrops, if_pos hn, ih]
      have hlen : (cuts ++ [(⟨cuts.length, c.time, colorAt cuts.length, 1⟩ : CutMarker)]).length =
          cuts.length + 1 := by simp
      rw [hlen]
      have htake : n - cuts.length = (n - (cuts.length + 1)) + 1 := by omega
      rw [htake, List.take_succ_cons, mkCutsFrom, List.append_assoc]
      rfl
    · rw [addForcedDrops, if_neg hn, addForcedDrops_of_full n rest cuts (by omega)]
      have : n - cuts.length = 0 := by omega
      rw [this, List.take_zero, mkCutsFrom]
      simp

theorem mkCutsFrom_map_time (k : ℕ) :
    ∀ (l : List Candidate), (mkCutsFrom k l).map (fun c => c.time) = l.map (fun c => c.time) := by
  intro l
  induction l generalizing k with
  | nil => rfl
  | cons c rest ih => simp [mkCutsFrom, ih]

theorem mkCutsFrom_length (k : ℕ) :
    ∀ (l : List Candidate), (mkCutsFrom k l).length = l.length := by
  intro l
  induction l generalizing k with
  | nil => rfl
  | cons c rest ih => simp [mkCutsFrom, ih]

/-! ### Phase 2: candidate walk lemmas -/

theorem walkCandidates_append (n : ℕ) (m : ℚ) :
    ∀ (cands : List Candidate) (cuts : List CutMarker),
      ∃ suf, walkCandidates n m cands cuts = cuts ++ suf := by
  intro cands
  induction cands with
  | nil => intro cuts; exact ⟨[], by simp [walkCandidates]⟩
  | cons c rest ih =>
    intro cuts
    simp only [walkCandidates]
    split
    · exact ⟨[], by simp⟩
    · split
      · exact ih cuts
      · split
        · exact ih cuts
        · obtain ⟨suf, heq⟩ := ih (cuts ++ [⟨cuts.length, c.time, colorAt cuts.length, 1⟩])
          rw [heq, List.append_assoc]
          exact ⟨_, rfl⟩

theorem walkCandidates_length_le (n : ℕ) (m : ℚ) :
    ∀ (cands : List Candidate) (cuts : List CutMarker), cuts.length ≤ n →
      (walkCandidates n m cands cuts).length ≤ n := by
  intro cands
  induction cands with
  | nil => intro cuts h; simpa [walkCandidates] using h
  | cons c rest ih =>
    intro cuts h
    simp only [walkCandidates]
    split
    · exact h
    · next hlt =>
      split
      · exact ih cuts h
      · split
        · exact ih cuts h
        · refine ih _ ?_
          simp only [List.length_append, List.length_singleton]
          omega

theorem walkCandidates_lower (n : ℕ) (m : ℚ) (P : ℚ → Prop) :
    ∀ (cands : List Candidate) (cuts : List CutMarker),
      (∀ c ∈ cands, P c.time) → (∀ x ∈ cuts, P x.time) →
      ∀ x ∈ walkCandidates n m cands cuts, P x.time := by
  intro cands
  induction cands with
  | nil =>
    intro cuts _ hc x hx
    exact hc x (by simpa [walkCandidates] using hx)
  | cons c rest ih =>
    intro cuts hcand hc x hx
    simp only [walkCandidates] at hx
    split at hx
    · exact hc x hx
    · split at hx
      · exact ih _ (fun y hy => hcand y (List.mem_cons_of_mem c hy)) hc x hx
      · split at hx
        · exact ih _ (fun y hy => hcand y (List.mem_cons_of_mem c hy)) hc x hx
        · refine ih _ (fun y hy => hcand y (List.mem_cons_of_mem c hy)) ?_ x hx
          intro y hy
          rcases List.mem_append.1 hy with h1 | h2
          · exact hc y h1
          · rw [List.mem_singleton.1 h2]
            exact hcand c (List.mem_cons_self c rest)

theorem walkCandidates_pairwise (n : ℕ) (m : ℚ) (R : ℚ → ℚ → Prop)
    (hR : ∀ x y, m ≤ |x - y| → R x y) :
    ∀ (cands : List Candidate) (cuts : List CutMarker),
      List.Pairwise (fun a b : CutMarker => R a.time b.time) cuts →
      List.Pairwise (fun a b : CutMarker => R a.time b.time) (walkCandidates n m cands cuts) := by
  intro cands
  induction cands with
  | nil => intro cuts h; simpa [walkCandidates] using h
  | cons c rest ih =>
    intro cuts h
    simp only [walkCandidates]
    split
    · exact h
    · split
      · exact ih cuts h
      · split
        · exact ih cuts h
        · next hnotclose =>
          refine ih _ ?_
          rw [List.pairwise_append]
          refine ⟨h, List.pairwise_singleton _ _, ?_⟩
          intro a ha b hb
          rw [List.mem_singleton.1 hb]
          apply hR
          have hnot : ¬ (|a.time - c.time| < m) := fun hlt =>
            hnotclose (List.any_eq_true.2 ⟨a, ha, decide_eq_true hlt⟩)
          exact not_lt.1 hnot

/-! ### Phase 3: backfill lemmas -/

theorem foldl_pick_mem {α : Type} (f : α → α → α) (hf : ∀ x y, f x y = x ∨ f x y = y) :
    ∀ (l : List α) (a : α), l.foldl f a ∈ a :: l := by
  intro l
  induction l with
  | nil => intro a; simp
  | cons b rest ih =>
    intro a
    rw [List.foldl_cons]
    rcases hf a b with h | h <;> rw [h]
    · have := ih a
      simp only [List.mem_cons] at this ⊢
      tauto
    · have := ih b
      simp only [List.mem_cons] at this ⊢
      tauto

theorem nearestBeatTo_mem (t : ℚ) (b : BeatMarker) (bs : List BeatMarker) :
    nearestBeatTo t b bs ∈ b :: bs := by
  apply foldl_pick_mem
  intro x y
  dsimp only
  split
  · exact Or.inr rfl
  · exact Or.inl rfl

theorem backfillCuts_of_ge (s dur m : ℚ) (n : ℕ) (avail : List BeatMarker) (fuel : ℕ)
    (cuts : List CutMarker) (h : n ≤ cuts.length) :
    backfillCuts s dur m n avail fuel cuts = .ok cuts := by
  cases fuel
  · rfl
  · rw [backfillCuts, if_neg (by omega)]

theorem backfillCuts_grows (s dur m : ℚ) (n : ℕ) (avail : List BeatMarker) :
    ∀ (fuel : ℕ) (cuts l : List CutMarker),
      backfillCuts s dur m n avail fuel cuts = .ok l → ∃ suf, l = cuts ++ suf := by
  intro fuel
  induction fuel with
  | zero =>
    intro cuts l h
    rw [backfillCuts] at h
    exact ⟨[], by simpa using (Except.ok.inj h).symm⟩
  | succ fuel ih =>
    intro cuts l h
    rw [backfillCuts] at h
    split at h
    · split at h
      · exact absurd h (by simp)
      · obtain ⟨suf, heq⟩ := ih _ l h
        rw [heq, List.append_assoc]
        exact ⟨_, rfl⟩
    · exact ⟨[], by simpa using (Except.ok.inj h).symm⟩

theorem backfillCuts_length (s dur m : ℚ) (n : ℕ) (avail : List BeatMarker) :
    ∀ (fuel : ℕ) (cuts l : List CutMarker), cuts.length ≤ n → n ≤ fuel + cuts.length →
      backfillCuts s dur m n avail fuel cuts = .ok l → l.length = n := by
  intro fuel
  induction fuel with
  | zero =>
    intro cuts l hle hfuel h
    rw [backfillCuts] at h
    rw [← Except.ok.inj h]
    omega
  | succ fuel ih =>
    intro cuts l hle hfuel h
    rw [backfillCuts] at h
    split at h
    · next hlt =>
      split at h
      · exact absurd h (by simp)
      · refine ih _ l ?_ ?_ h <;> simp only [List.length_append, List.length_singleton] <;> omega
    · next hge =>
      rw [← Except.ok.inj h]
      omega

theorem backfillCuts_lower (s dur m : ℚ) (n : ℕ) (avail : List BeatMarker) :
    ∀ (fuel : ℕ) (cuts l : List CutMarker),
      (∀ x ∈ cuts, s + 0.05 ≤ x.time) →
      backfillCuts s dur m n avail fuel cuts = .ok l → ∀ x ∈ l, s + 0.05 ≤ x.time := by
  intro fuel
  induction fuel with
  | zero =>
    intro cuts l hc h
    rw [backfillCuts] at h
    rw [← Except.ok.inj h]
    exact hc
  | succ fuel ih =>
    intro cuts l hc h
    rw [backfillCuts] at h
    split at h
    · split at h
      · exact absurd h (by simp)
      · refine ih _ l ?_ h
        intro x hx
        rcases List.mem_append.1 hx with h1 | h2
        · exact hc x h1
        · rw [List.mem_singleton.1 h2]
          exact le_max_left _ _
    · rw [← Except.ok.inj h]
      exact hc

theorem backfillCuts_upper (s dur m e : ℚ) (n : ℕ) (avail : List BeatMarker)
    (hb : ∀ b ∈ avail, s < b.time ∧ b.time < e) (hse : s + 0.05 < e) :
    ∀ (fuel : ℕ) (cuts l : List CutMarker),
      (∀ x ∈ cuts, x.time < e) →
      backfillCuts s dur m n avail fuel cuts = .ok l → ∀ x ∈ l, x.time < e := by
  intro fuel
  induction fuel with
  | zero =>
    intro cuts l hc h
    rw [backfillCuts] at h
    rw [← Except.ok.inj h]
    exact hc
  | succ fuel ih =>
    intro cuts l hc h
    rw [backfillCuts] at h
    split at h
    · split at h
      · exact absurd h (by simp)
      · next b bs hfilter =>
        refine ih _ l ?_ h
        intro x hx
        rcases List.mem_append.1 hx with h1 | h2
        · exact hc x h1
        · rw [List.mem_singleton.1 h2]
          have hsub : b :: bs ⊆ avail := by
            rw [← hfilter]
            exact fun y hy => List.mem_of_mem_filter hy
          have hbb := hb _ (hsub
            (nearestBeatTo_mem (s + ((cuts.length : ℚ) + 1) * dur / ((n : ℚ) + 1)) b bs))
          exact max_lt hse (by linarith [hbb.2])
    · rw [← Except.ok.inj h]
      exact hc

/-! ### Distinctness and spacing arithmetic -/

theorem backfill_time_ne {s m bt ct : ℚ} (hm : 1/20 ≤ m) (hs : s < bt)
    (hct : s + 0.05 ≤ ct) (hd : m ≤ |ct - bt|) : max (s + 0.05) (bt - 0.02) ≠ ct := by
  have h5 : (0.05 : ℚ) = 1/20 := by norm_num
  have h2 : (0.02 : ℚ) = 1/50 := by norm_num
  rw [h5] at hct
  rw [h5, h2]
  rcases le_or_lt (s + 1/20) (bt - 1/50) with hle | hlt
  · rw [max_eq_right hle]
    intro heq
    have h1 : ct - bt = -(1/50) := by rw [← heq]; ring
    rw [h1, abs_neg, abs_of_nonneg (by norm_num : (0:ℚ) ≤ 1/50)] at hd
    linarith
  · rw [max_eq_left hlt.le]
    intro heq
    rw [← heq] at hd
    have habs : |s + 1/20 - bt| < 1/20 := by
      rw [abs_lt]
      constructor <;> linarith
    linarith

theorem backfillCuts_distinct (s dur m : ℚ) (n : ℕ) (avail : List BeatMarker)
    (hm : 1/20 ≤ m) (hb : ∀ b ∈ avail, s < b.time) :
    ∀ (fuel : ℕ) (cuts l : List CutMarker),
      (∀ x ∈ cuts, s + 0.05 ≤ x.time) →
      List.Pairwise (fun a b : CutMarker => a.time ≠ b.time) cuts →
      backfillCuts s dur m n avail fuel cuts = .ok l →
      List.Pairwise (fun a b : CutMarker => a.time ≠ b.time) l := by
  intro fuel
  induction fuel with
  | zero =>
    intro cuts l hlow hpw h
    rw [backfillCuts] at h
    rw [← Except.ok.inj h]
    exact hpw
  | succ fuel ih =>
    intro cuts l hlow hpw h
    rw [backfillCuts] at h
    split at h
    · split at h
      · exact absurd h (by simp)
      · next b bs hfilter =>
        have hnbmem : nearestBeatTo (s + ((cuts.length : ℚ) + 1) * dur / ((n : ℚ) + 1)) b bs ∈
            List.filter (fun b => !cuts.any fun cut => decide (|cut.time - b.time| < m)) avail := by
          rw [hfilter]
          exact nearestBeatTo_mem _ b bs
        have hpred := List.of_mem_filter hnbmem
        have hfar : ∀ cut ∈ cuts, m ≤ |cut.time -
            (nearestBeatTo (s + ((cuts.length : ℚ) + 1) * dur / ((n : ℚ) + 1)) b bs).time| := by
          intro cut hcut
          by_contra hclose
          rw [not_le] at hclose
          have hany : cuts.any (fun cut => decide (|cut.time -
              (nearestBeatTo (s + ((cuts.length : ℚ) + 1) * dur / ((n : ℚ) + 1)) b bs).time| < m))
              = true := List.any_eq_true.2 ⟨cut, hcut, decide_eq_true hclose⟩
          rw [hany] at hpred
          exact absurd hpred (by simp)
        have hnbavail := List.mem_of_mem_filter hnbmem
        refine ih _ l ?_ ?_ h
        · intro x hx
          rcases List.mem_append.1 hx with h1 | h2
          · exact hlow x h1
          · rw [List.mem_singleton.1 h2]
            exact le_max_left _ _
        · rw [List.pairwise_append]
          refine ⟨hpw, List.pairwise_singleton _ _, ?_⟩
          intro a ha c hc
          rw [List.mem_singleton.1 hc]
          exact (backfill_time_ne hm (hb _ hnbavail) (hlow a ha) (hfar a ha)).symm
    · rw [← Except.ok.inj h]
      exact hpw

theorem mkDropCand_gap {s t1 t2 : ℚ} (h1 : s < t1) (hgap : t1 + 6/5 ≤ t2) :
    11/10 < (max (s + 0.05) (t2 - 0.05)) - (max (s + 0.05) (t1 - 0.05)) := by
  have h5 : (0.05 : ℚ) = 1/20 := by norm_num
  rw [h5]
  rw [max_eq_right (by linarith : s + 1/20 ≤ t2 - 1/20)]
  rcases max_cases (s + 1/20) (t1 - 1/20) with ⟨heq, hge⟩ | ⟨heq, hlt⟩ <;> rw [heq] <;> linarith

theorem dropCands_pairwise_gap {s e : ℚ} {beats : List BeatMarker}
    (hsorted : List.Pairwise (fun a b : BeatMarker => a.time ≤ b.time) beats) :
    List.Pairwise (fun c1 c2 : Candidate => 11/10 < |c1.time - c2.time|)
      ((detectDrops (availableBeats s e beats)).map (mkDropCand s)) := by
  have hgaps := detectDrops_gaps (availableBeats_sorted (s := s) (e := e) hsorted)
  rw [List.pairwise_map]
  refine hgaps.imp_of_mem ?_
  intro d1 d2 h1 h2 hgap
  have hd1 : s < d1.time := by
    obtain ⟨b, hbm, ht⟩ := detectDrops_time_mem h1
    rw [ht]
    exact (mem_availableBeats hbm).1
  have hmk := mkDropCand_gap hd1 hgap
  have : (mkDropCand s d1).time = max (s + 0.05) (d1.time - 0.05) := rfl
  rw [abs_sub_comm]
  show 11/10 < |(mkDropCand s d2).time - (mkDropCand s d1).time|
  rw [show (mkDropCand s d2).time = max (s + 0.05) (d2.time - 0.05) from rfl,
    show (mkDropCand s d1).time = max (s + 0.05) (d1.time - 0.05) from rfl,
    abs_of_pos (by linarith)]
  exact hmk

/-! ### Aggregate properties of phases 1+2 (`selectedAfterWalk`) -/

theorem mkCutsFrom_time_mem {k : ℕ} {l : List Candidate} {x : CutMarker}
    (h : x ∈ mkCutsFrom k l) : ∃ c ∈ l, x.time = c.time := by
  induction l generalizing k with
  | nil => simp [mkCutsFrom] at h
  | cons c rest ih =>
    rw [mkCutsFrom] at h
    rcases List.mem_cons.1 h with rfl | h2
    · exact ⟨c, List.mem_cons_self c rest, rfl⟩
    · obtain ⟨c', hc', ht⟩ := ih h2
      exact ⟨c', List.mem_cons_of_mem c hc', ht⟩

theorem pairwise_of_map_time_eq {R : ℚ → ℚ → Prop} {l1 l2 : List CutMarker}
    (h : l1.map (fun c => c.time) = l2.map (fun c => c.time))
    (hp : List.Pairwise (fun a b : CutMarker => R a.time b.time) l1) :
    List.Pairwise (fun a b : CutMarker => R a.time b.time) l2 :=
  List.pairwise_map.1 (h ▸ List.pairwise_map.2 hp)

theorem forcedCuts_perm (s e dur : ℚ) (ms : List MeasureInfo) (drops : List DropMarker)
    (avail : List BeatMarker) (h : ∀ d ∈ drops, s < d.time ∧ d.time < e) :
    ((List.insertionSort priorityGE (buildCandidates s e dur ms drops avail)).filter
        fun c => decide (c.reason = CutReason.drop)).Perm (drops.map (mkDropCand s)) := by
  have hperm := (List.perm_insertionSort priorityGE (buildCandidates s e dur ms drops avail))
  have := hperm.filter (fun c => decide (c.reason = CutReason.drop))
  rw [buildCandidates_filter_drop h] at this
  exact this

theorem detectDrops_avail_bounds (s e : ℚ) (beats : List BeatMarker) :
    ∀ d ∈ detectDrops (availableBeats s e beats), s < d.time ∧ d.time < e := by
  intro d hd
  obtain ⟨b, hb, ht⟩ := detectDrops_time_mem hd
  rw [ht]
  exact mem_availableBeats hb

theorem selectedAfterWalk_length_le (s e dur : ℚ) (n : ℕ) (m : ℚ)
    (avail : List BeatMarker) : (selectedAfterWalk s e dur n m avail).length ≤ n := by
  unfold selectedAfterWalk candidatesOf forcedOf
  apply walkCandidates_length_le
  rw [addForcedDrops_eq]
  simp only [List.nil_append, List.length_nil, Nat.sub_zero, mkCutsFrom_length,
    List.length_take]
  exact Nat.min_le_left _ _

theorem selectedAfterWalk_lower {s e : ℚ} (dur : ℚ) (n : ℕ) (m : ℚ)
    {avail : List BeatMarker} (hb : ∀ b ∈ avail, s < b.time ∧ b.time < e) :
    ∀ x ∈ selectedAfterWalk s e dur n m avail, s + 0.05 ≤ x.time := by
  have hcands : ∀ c ∈ List.insertionSort priorityGE
      (buildCandidates s e dur (detectMeasures avail) (detectDrops avail) avail),
      s + 0.05 ≤ c.time := by
    intro c hc
    exact candShape_lower (buildCandidates_shape hb c ((List.mem_insertionSort priorityGE).1 hc))
  unfold selectedAfterWalk candidatesOf forcedOf
  apply walkCandidates_lower n m (fun t => s + 0.05 ≤ t) _ _ hcands
  intro x hx
  rw [addForcedDrops_eq] at hx
  obtain ⟨c, hc, ht⟩ := mkCutsFrom_time_mem (by simpa using hx)
  rw [ht]
  exact hcands c (List.mem_of_mem_filter (List.take_subset _ _ hc))

theorem selectedAfterWalk_upper {s e : ℚ} (dur : ℚ) (n : ℕ) (m : ℚ)
    {avail : List BeatMarker} (hb : ∀ b ∈ avail, s < b.time ∧ b.time < e)
    (hse : s + 0.05 < e) :
    ∀ x ∈ selectedAfterWalk s e dur n m avail, x.time < e := by
  have hcands : ∀ c ∈ List.insertionSort priorityGE
      (buildCandidates s e dur (detectMeasures avail) (detectDrops avail) avail),
      c.time < e := by
    intro c hc
    exact candShape_upper hse (buildCandidates_shape hb c ((List.mem_insertionSort priorityGE).1 hc))
  unfold selectedAfterWalk candidatesOf forcedOf
  apply walkCandidates_lower n m (fun t => t < e) _ _ hcands
  intro x hx
  rw [addForcedDrops_eq] at hx
  obtain ⟨c, hc, ht⟩ := mkCutsFrom_time_mem (by simpa using hx)
  rw [ht]
  exact hcands c (List.mem_of_mem_filter (List.take_subset _ _ hc))

theorem selectedAfterWalk_pairwise {s e : ℚ} (dur : ℚ) (n : ℕ) {m : ℚ}
    {beats : List BeatMarker}
    (hsorted : List.Pairwise (fun a b : BeatMarker => a.time ≤ b.time) beats)
    (hm : m ≤ 11/10) :
    List.Pairwise (fun a b : CutMarker => m ≤ |a.time - b.time|)
      (selectedAfterWalk s e dur n m (availableBeats s e beats)) := by
  unfold selectedAfterWalk candidatesOf forcedOf
  apply walkCandidates_pairwise n m (fun x y => m ≤ |x - y|) (fun x y h => h)
  rw [addForcedDrops_eq]
  simp only [List.nil_append, List.length_nil, Nat.sub_zero]
  have hforced := forcedCuts_perm s e dur (detectMeasures (availableBeats s e beats))
    (detectDrops (availableBeats s e beats)) (availableBeats s e beats)
    (detectDrops_avail_bounds s e beats)
  have hgap : List.Pairwise (fun c1 c2 : Candidate => 11/10 < |c1.time - c2.time|)
      ((List.insertionSort priorityGE (buildCandidates s e dur
          (detectMeasures (availableBeats s e beats))
          (detectDrops (availableBeats s e beats)) (availableBeats s e beats))).filter
        fun c => decide (c.reason = CutReason.drop)) := by
    refine (dropCands_pairwise_gap (s := s) (e := e) hsorted).perm hforced.symm ?_
    intro x y hxy
    rwa [abs_sub_comm]
  have htake := hgap.sublist (List.take_sublist n _)
  have hcut : List.Pairwise (fun a b : CutMarker => 11/10 < |a.time - b.time|)
      (mkCutsFrom 0 ((List.insertionSort priorityGE (buildCandidates s e dur
          (detectMeasures (availableBeats s e beats))
          (detectDrops (availableBeats s e beats)) (availableBeats s e beats))).filter
        (fun c => decide (c.reason = CutReason.drop)) |>.take n)) := by
    refine (List.pairwise_map (R := fun x y : ℚ => 11/10 < |x - y|)
      (f := fun c : CutMarker => c.time)).1 ?_
    rw [mkCutsFrom_map_time]
    exact (List.pairwise_map (R := fun x y : ℚ => 11/10 < |x - y|)
      (f := fun c : Candidate => c.time)).2 htake
  exact hcut.imp fun {a b} h => by linarith [h]

theorem selectedAfterWalk_distinct {s e : ℚ} (dur : ℚ) (n : ℕ) {m : ℚ}
    {beats : List BeatMarker}
    (hsorted : List.Pairwise (fun a b : BeatMarker => a.time ≤ b.time) beats)
    (hmpos : 0 < m) :
    List.Pairwise (fun a b : CutMarker => a.time ≠ b.time)
      (selectedAfterWalk s e dur n m (availableBeats s e beats)) := by
  unfold selectedAfterWalk candidatesOf forcedOf
  apply walkCandidates_pairwise n m (fun x y => x ≠ y)
  · intro x y h heq
    rw [heq, sub_self, abs_zero] at h
    linarith
  rw [addForcedDrops_eq]
  simp only [List.nil_append, List.length_nil, Nat.sub_zero]
  have hforced := forcedCuts_perm s e dur (detectMeasures (availableBeats s e beats))
    (detectDrops (availableBeats s e beats)) (availableBeats s e beats)
    (detectDrops_avail_bounds s e beats)
  have hgap : List.Pairwise (fun c1 c2 : Candidate => 11/10 < |c1.time - c2.time|)
      ((List.insertionSort priorityGE (buildCandidates s e dur
          (detectMeasures (availableBeats s e beats))
          (detectDrops (availableBeats s e beats)) (availableBeats s e beats))).filter
        fun c => decide (c.reason = CutReason.drop)) := by
    refine (dropCands_pairwise_gap (s := s) (e := e) hsorted).perm hforced.symm ?_
    intro x y hxy
    rwa [abs_sub_comm]
  have htake := hgap.sublist (List.take_sublist n _)
  have hcut : List.Pairwise (fun a b : CutMarker => 11/10 < |a.time - b.time|)
      (mkCutsFrom 0 ((List.insertionSort priorityGE (buildCandidates s e dur
          (detectMeasures (availableBeats s e beats))
          (detectDrops (availableBeats s e beats)) (availableBeats s e beats))).filter
        (fun c => decide (c.reason = CutReason.drop)) |>.take n)) := by
    refine (List.pairwise_map (R := fun x y : ℚ => 11/10 < |x - y|)
      (f := fun c : CutMarker => c.time)).1 ?_
    rw [mkCutsFrom_map_time]
    exact (List.pairwise_map (R := fun x y : ℚ => 11/10 < |x - y|)
      (f := fun c : Candidate => c.time)).2 htake
  refine hcut.imp fun {a b} h heq => ?_
  rw [heq, sub_self, abs_zero] at h
  linarith

/-! ### Duration optimizer lemmas -/

theorem optimizeSorted_map_time (e : ℚ) :
    ∀ l : List CutMarker, (optimizeSorted e l).map (fun c => c.time) = l.map (fun c => c.time) := by
  intro l
  induction l with
  | nil => rfl
  | cons c rest ih =>
    cases rest with
    | nil => rfl
    | cons c2 rest2 =>
      rw [optimizeSorted]
      simp only [List.map_cons]
      rw [List.map_cons] at ih
      rw [ih]

theorem optimizeSorted_map_strip (e : ℚ) :
    ∀ l : List CutMarker,
      (optimizeSorted e l).map stripDuration = l.map stripDuration := by
  intro l
  induction l with
  | nil => rfl
  | cons c rest ih =>
    cases rest with
    | nil => rfl
    | cons c2 rest2 =>
      rw [optimizeSorted]
      simp only [List.map_cons]
      rw [List.map_cons] at ih
      rw [ih]
      rfl

theorem optimizeSorted_sorted (e : ℚ) {l : List CutMarker}
    (h : List.Pairwise cutTimeLE l) : List.Pairwise cutTimeLE (optimizeSorted e l) := by
  have h' : List.Pairwise (fun a b : CutMarker => a.time ≤ b.time) l := h
  exact pairwise_of_map_time_eq (optimizeSorted_map_time e l).symm h'

theorem optimizeSorted_idem (e : ℚ) :
    ∀ l : List CutMarker, optimizeSorted e (optimizeSorted e l) = optimizeSorted e l := by
  intro l
  induction l with
  | nil => rfl
  | cons c rest ih =>
    cases rest with
    | nil =>
      simp [optimizeSorted, min_assoc, min_self]
    | cons c2 rest2 =>
      cases rest2 with
      | nil =>
        simp [optimizeSorted, min_assoc, min_self]
      | cons c3 rest3 =>
        simp only [optimizeSorted] at ih ⊢
        rw [ih]
        simp [min_assoc, min_self]

theorem optimizeCutDurations_sorted (cuts : List CutMarker) (e : ℚ) :
    List.Pairwise cutTimeLE (optimizeCutDurations cuts e) :=
  optimizeSorted_sorted e (List.sorted_insertionSort cutTimeLE cuts)

theorem optimizeCutDurations_times_perm (cuts : List CutMarker) (e : ℚ) :
    ((optimizeCutDurations cuts e).map (fun c => c.time)).Perm
      (cuts.map (fun c => c.time)) := by
  unfold optimizeCutDurations
  rw [optimizeSorted_map_time]
  exact (List.perm_insertionSort cutTimeLE cuts).map _

theorem optimizeCutDurations_strip_perm (cuts : List CutMarker) (e : ℚ) :
    ((optimizeCutDurations cuts e).map stripDuration).Perm (cuts.map stripDuration) := by
  unfold optimizeCutDurations
  rw [optimizeSorted_map_strip]
  exact (List.perm_insertionSort cutTimeLE cuts).map _

theorem optimizeCutDurations_length (cuts : List CutMarker) (e : ℚ) :
    (optimizeCutDurations cuts e).length = cuts.length := by
  have h := (optimizeCutDurations_times_perm cuts e).length_eq
  simpa using h

/-! ### Transfer to the final (sorted + optimized) list -/

theorem final_pairwise_of_sel {R : ℚ → ℚ → Prop}
    (hsymm : ∀ {x y : ℚ}, R x y → R y x) {sel l : List CutMarker} {e : ℚ}
    (hl : l = optimizeCutDurations (List.insertionSort cutTimeLE sel) e)
    (hp : List.Pairwise (fun a b : CutMarker => R a.time b.time) sel) :
    List.Pairwise (fun a b : CutMarker => R a.time b.time) l := by
  subst hl
  unfold optimizeCutDurations
  apply pairwise_of_map_time_eq (optimizeSorted_map_time e _).symm
  have h1 := hp.perm (List.perm_insertionSort cutTimeLE sel).symm fun hab => hsymm hab
  exact h1.perm (List.perm_insertionSort cutTimeLE _).symm fun hab => hsymm hab

theorem final_lower_of_sel {P : ℚ → Prop} {sel l : List CutMarker} {e : ℚ}
    (hl : l = optimizeCutDurations (List.insertionSort cutTimeLE sel) e)
    (hp : ∀ x ∈ sel, P x.time) : ∀ x ∈ l, P x.time := by
  subst hl
  intro x hx
  have hmem : x.time ∈ (optimizeCutDurations (List.insertionSort cutTimeLE sel) e).map
      (fun c => c.time) := List.mem_map_of_mem _ hx
  have hperm := (optimizeCutDurations_times_perm (List.insertionSort cutTimeLE sel) e).trans
    ((List.perm_insertionSort cutTimeLE sel).map _)
  have := hperm.mem_iff.1 hmem
  obtain ⟨y, hy, ht⟩ := List.mem_map.1 this
  rw [← ht]
  exact hp y hy

theorem final_time_mem_of_sel {sel l : List CutMarker} {e t : ℚ}
    (hl : l = optimizeCutDurations (List.insertionSort cutTimeLE sel) e)
    (ht : t ∈ sel.map (fun c => c.time)) : t ∈ l.map (fun c => c.time) := by
  subst hl
  have hperm := (optimizeCutDurations_times_perm (List.insertionSort cutTimeLE sel) e).trans
    ((List.perm_insertionSort cutTimeLE sel).map _)
  exact hperm.mem_iff.2 ht

theorem final_length_of_sel {sel l : List CutMarker} {e : ℚ}
    (hl : l = optimizeCutDurations (List.insertionSort cutTimeLE sel) e) :
    l.length = sel.length := by
  subst hl
  rw [optimizeCutDurations_length, List.length_insertionSort]

/-! ### Path lemmas for `generateRandomCuts` -/

theorem generateRandomCuts_eq_mainPath {s e : ℚ} {pc : ℤ} {beats : List BeatMarker}
    {m : ℚ} {pr : Bool} (h2 : ¬ pc < 2)
    (hdur : ¬ e - s < (((pc - 1).toNat : ℚ)) * m)
    (hav : ¬ availableBeats s e beats = []) :
    generateRandomCuts s e pc beats m pr =
      mainPath s e (pc - 1).toNat m (availableBeats s e beats) := by
  rw [generateRandomCuts, if_neg h2, if_neg hdur, if_neg hav]

theorem mainPath_ok {s e m : ℚ} {n : ℕ} {avail : List BeatMarker} {l : List CutMarker}
    (h : mainPath s e n m avail = .ok l) :
    ∃ sel, backfillCuts s (e - s) m n avail n (selectedAfterWalk s e (e - s) n m avail) =
        .ok sel ∧
      l = optimizeCutDurations (List.insertionSort cutTimeLE sel) e := by
  unfold mainPath at h
  split at h
  · exact absurd h (by simp)
  · next sel hsel => exact ⟨sel, hsel, (Except.ok.inj h).symm⟩

/-! ### Equidistant fallback lemmas -/

theorem generateEquidistantCuts_length (s e : ℚ) (n : ℕ) :
    (generateEquidistantCuts s e n).length = n := by
  simp [generateEquidistantCuts]

theorem generateEquidistantCuts_bounds {s e m : ℚ} {n : ℕ} (hm : 1/10 ≤ m) (h1 : 1 ≤ n)
    (hdur : (n : ℚ) * m ≤ e - s) :
    ∀ c ∈ generateEquidistantCuts s e n, s + 0.05 ≤ c.time ∧ c.time < e := by
  intro c hc
  unfold generateEquidistantCuts at hc
  obtain ⟨i, hi, rfl⟩ := List.mem_map.1 hc
  rw [List.mem_range] at hi
  have hn1 : (0:ℚ) < (n:ℚ) + 1 := by positivity
  have hcast : (1:ℚ) ≤ (n:ℚ) := by exact_mod_cast h1
  have hd : (n:ℚ) * (1/10) ≤ e - s :=
    le_trans (mul_le_mul_of_nonneg_left hm (by positivity)) hdur
  have hdpos : 0 < e - s := by nlinarith
  have hint : 1/20 ≤ (e - s)/((n:ℚ)+1) := by
    rw [le_div_iff₀ hn1]
    nlinarith
  have hipos : (0:ℚ) ≤ (e - s)/((n:ℚ)+1) := by linarith
  have hi1 : (1:ℚ) ≤ (i:ℚ) + 1 := by
    have : (0:ℚ) ≤ (i:ℚ) := by positivity
    linarith
  have hni : ((i:ℚ)+1) ≤ (n:ℚ) := by exact_mod_cast Nat.succ_le_of_lt hi
  constructor
  · show s + 0.05 ≤ s + (e - s)/((n:ℚ)+1) * ((i:ℚ) + 1)
    have h5 : (0.05 : ℚ) = 1/20 := by norm_num
    rw [h5]
    nlinarith [mul_le_mul_of_nonneg_left hi1 hipos]
  · show s + (e - s)/((n:ℚ)+1) * ((i:ℚ) + 1) < e
    have hlt : (e - s)/((n:ℚ)+1) * ((i:ℚ) + 1) < e - s := by
      rw [div_mul_eq_mul_div, div_lt_iff₀ hn1]
      nlinarith
    linarith

theorem generateEquidistantCuts_strict {s e m : ℚ} {n : ℕ} (hmpos : 0 < m)
    (hdur : (n : ℚ) * m ≤ e - s) (h1 : 1 ≤ n) :
    List.Pairwise (fun a b : CutMarker => a.time < b.time) (generateEquidistantCuts s e n) := by
  unfold generateEquidistantCuts
  have hcast : (1:ℚ) ≤ (n:ℚ) := by exact_mod_cast h1
  have hdpos : 0 < e - s := by nlinarith
  have hn1 : (0:ℚ) < (n:ℚ) + 1 := by positivity
  have hipos : (0:ℚ) < (e - s)/((n:ℚ)+1) := by positivity
  refine (List.pairwise_map).2 ?_
  refine (List.pairwise_lt_range n).imp ?_
  intro i j hij
  show s + (e - s)/((n:ℚ)+1) * ((i:ℚ) + 1) < s + (e - s)/((n:ℚ)+1) * ((j:ℚ) + 1)
  have hijq : (i:ℚ) + 1 < (j:ℚ) + 1 := by exact_mod_cast Nat.succ_lt_succ hij
  nlinarith

/-! ### Length of any successfully returned list -/

theorem generateRandomCuts_ok_length {s e : ℚ} {pc : ℤ} {beats : List BeatMarker}
    {m : ℚ} {pr : Bool} {l : List CutMarker}
    (h2 : ¬ pc < 2) (hdur : ¬ e - s < (((pc - 1).toNat : ℚ)) * m)
    (hok : generateRandomCuts s e pc beats m pr = .ok l) :
    l.length = (pc - 1).toNat := by
  by_cases hav : availableBeats s e beats = []
  · rw [generateRandomCuts, if_neg h2, if_neg hdur, if_pos hav] at hok
    rw [← Except.ok.inj hok]
    exact generateEquidistantCuts_length s e _
  · rw [generateRandomCuts_eq_mainPath h2 hdur hav] at hok
    obtain ⟨sel, hbf, hleq⟩ := mainPath_ok hok
    have hlen := backfillCuts_length s (e - s) m ((pc - 1).toNat)
      (availableBeats s e beats) ((pc - 1).toNat) _ sel
      (selectedAfterWalk_length_le s e (e - s) ((pc - 1).toNat) m (availableBeats s e beats))
      (by omega) hbf
    rw [final_length_of_sel hleq, hlen]

theorem forcedOf_perm (s e dur : ℚ) (beats : List BeatMarker) :
    (forcedOf s e dur (availableBeats s e beats)).Perm
      ((detectDrops (availableBeats s e beats)).map (mkDropCand s)) := by
  unfold forcedOf candidatesOf
  exact forcedCuts_perm s e dur _ _ _ (detectDrops_avail_bounds s e beats)

theorem measureWalk_head (avg bpm : ℚ) :
    ∀ (e0 : ℚ) (beats : List BeatMarker) (mi : MeasureInfo),
      (measureWalk avg bpm e0 beats).head? = some mi →
      |mi.startTime - e0| < avg * 0.3 ∧
        mi.confidence = max 0.1 (1 - |mi.startTime - e0| / avg) := by
  intro e0 beats
  induction beats generalizing e0 with
  | nil => intro mi h; simp [measureWalk] at h
  | cons b rest ih =>
    intro mi h
    simp only [measureWalk] at h
    split at h
    · next hcond =>
      rw [List.head?_cons, Option.some.injEq] at h
      rw [← h]
      exact ⟨hcond, rfl⟩
    · exact ih e0 mi h

/-! ## The claims -/

/-- Claim C1: the claim says `generateRandomCuts` never raises and, when the backfill
finds no usable beat, adds a synthetic cut at `idealTime`.  The code instead
calls `Array.prototype.reduce` with no initial value on the filtered beat
array; with one strong beat at `t = 1` (already within `minCutInterval` of the
selected cut at `0.98`), the filtered array is empty and the call throws a
`TypeError` — the synthetic-cut `else` branch is unreachable. -/
theorem C1_backfill_reduce_error :
    generateRandomCuts 0 2 3 [⟨1, 1/2, BeatType.strong⟩] (4/5) true =
      .error "TypeError: Reduce of empty array with no initial value" := by decide

/-- Claim C2 counterexample: an input with `planCount = 3 ≥ 2` and
`endTime − startTime = 2 ≥ (planCount − 1) · minCutInterval = 1.6` on which
`generateRandomCuts` raises instead of returning a list of length
`planCount − 1`. -/
theorem C2_counterexample :
    (2:ℤ) ≤ 3 ∧ ((3:ℚ) - 1) * (4/5) ≤ 2 - 0 ∧
      generateRandomCuts 0 2 3 [⟨1, 9/10, BeatType.strong⟩] (4/5) true =
        .error "TypeError: Reduce of empty array with no initial value" :=
  ⟨by norm_num, by norm_num, by decide⟩

/-- Claim C2 (amended): for every input with `planCount ≥ 2` and
`endTime − startTime ≥ (planCount − 1) · minCutInterval` on which
`generateRandomCuts` returns normally, the returned list has length exactly
`planCount − 1`. -/
theorem C2_count (s e : ℚ) (pc : ℤ) (beats : List BeatMarker) (m : ℚ) (pr : Bool)
    (l : List CutMarker) (h2 : 2 ≤ pc) (hdur : ((pc : ℚ) - 1) * m ≤ e - s)
    (hok : generateRandomCuts s e pc beats m pr = .ok l) :
    (l.length : ℤ) = pc - 1 := by
  have hcast : (((pc - 1).toNat : ℚ)) = (pc : ℚ) - 1 := by
    have h := Int.toNat_of_nonneg (a := pc - 1) (by omega)
    exact_mod_cast h
  have hlen := generateRandomCuts_ok_length (by omega)
    (by rw [hcast]; exact not_lt.2 hdur) hok
  rw [hlen]
  exact Int.toNat_of_nonneg (by omega)

/-- Claim C2 witness: on a successful concrete run with `planCount = 3`, exactly two
cuts come back. -/
theorem C2_witness :
    (([⟨1, 99/50, "#3B82F6", 1⟩, ⟨0, 139/20, "#F97316", 1⟩] : List CutMarker).length : ℤ)
      = 3 - 1 :=
  C2_count 0 10 3 [⟨2, 1/2, BeatType.strong⟩, ⟨7, 1/2, BeatType.strong⟩] (4/5) true
    [⟨1, 99/50, "#3B82F6", 1⟩, ⟨0, 139/20, "#F97316", 1⟩]
    (by norm_num) (by norm_num) (by decide)

/-- Claim C3 counterexample: with `minCutInterval = 2`, two drops 1.3s apart are both
returned (drops are added unconditionally), so adjacent returned cuts are
closer than `minCutInterval` — far beyond any floating-point ε. -/
theorem C3_counterexample :
    generateRandomCuts 0 10 3
        [⟨1, 1/2, BeatType.strong⟩, ⟨3, 1/2, BeatType.strong⟩, ⟨43/10, 1/2, BeatType.strong⟩]
        2 true =
      .ok [⟨0, 59/20, "#F97316", 1⟩, ⟨1, 17/4, "#3B82F6", 1⟩] ∧
      (17/4 : ℚ) - 59/20 < 2 :=
  ⟨by decide, by norm_num⟩

/-- Claim C3 (amended): when `minCutInterval ≤ 1.1` (drop cuts are then always far
enough apart) and the drops plus the priority-order walk alone supply all
`planCount − 1` cuts (no backfill is needed), every pair of returned cuts is
at distance `≥ minCutInterval`.  Drop cuts (added unconditionally) and
backfill cuts (whose spacing check precedes the 20ms lead offset) are exactly
the two selection paths that can violate the spacing claim as stated. -/
theorem C3_spacing (s e : ℚ) (pc : ℤ) (beats : List BeatMarker) (m : ℚ) (pr : Bool)
    (l : List CutMarker)
    (hsorted : List.Pairwise (fun a b : BeatMarker => a.time ≤ b.time) beats)
    (hm : m ≤ 11/10)
    (hfill : (selectedAfterWalk s e (e - s) (pc - 1).toNat m
        (availableBeats s e beats)).length = (pc - 1).toNat)
    (hok : generateRandomCuts s e pc beats m pr = .ok l) :
    List.Pairwise (fun a b : CutMarker => m ≤ |a.time - b.time|) l := by
  by_cases h2 : pc < 2
  · rw [generateRandomCuts, if_pos h2] at hok
    rw [← Except.ok.inj hok]
    simp
  by_cases hdur : e - s < (((pc - 1).toNat : ℚ)) * m
  · rw [generateRandomCuts, if_neg h2, if_pos hdur] at hok
    rw [← Except.ok.inj hok]
    simp
  by_cases hav : availableBeats s e beats = []
  · exfalso
    rw [hav] at hfill
    have hz : (selectedAfterWalk s e (e - s) (pc - 1).toNat m []) = [] := rfl
    rw [hz] at hfill
    simp at hfill
    omega
  · rw [generateRandomCuts_eq_mainPath h2 hdur hav] at hok
    obtain ⟨sel, hbf, hleq⟩ := mainPath_ok hok
    rw [backfillCuts_of_ge _ _ _ _ _ _ _ (le_of_eq hfill.symm)] at hbf
    have hselEq : sel = selectedAfterWalk s e (e - s) (pc - 1).toNat m
        (availableBeats s e beats) := (Except.ok.inj hbf).symm
    rw [hselEq] at hleq
    exact final_pairwise_of_sel (R := fun x y => m ≤ |x - y|)
      (fun {x y} h => by dsimp only at h ⊢; rwa [abs_sub_comm]) hleq
      (selectedAfterWalk_pairwise (e - s) ((pc - 1).toNat) hsorted hm)

/-- Claim C3 witness: a successful run (one drop plus one strong-beat cut, no
backfill) whose two cuts are `≥ 0.8` apart. -/
theorem C3_witness :
    List.Pairwise (fun a b : CutMarker => (4/5 : ℚ) ≤ |a.time - b.time|)
      ([⟨1, 99/50, "#3B82F6", 1⟩, ⟨0, 139/20, "#F97316", 1⟩] : List CutMarker) :=
  C3_spacing 0 10 3 [⟨2, 1/2, BeatType.strong⟩, ⟨7, 1/2, BeatType.strong⟩] (4/5) true
    [⟨1, 99/50, "#3B82F6", 1⟩, ⟨0, 139/20, "#F97316", 1⟩]
    (by decide) (by norm_num) (by decide) (by decide)

/-- Claim C4 counterexample: with `minCutInterval = 0.01`, `startTime = 0`,
`endTime = 0.04`, the single returned cut is clamped to `0.05 > endTime`:
its time is NOT within `(startTime, endTime)`. -/
theorem C4_counterexample :
    generateRandomCuts 0 (1/25) 2 [⟨1/50, 1/2, BeatType.strong⟩] (1/100) true =
        .ok [⟨0, 1/20, "#F97316", 3/10⟩] ∧ ((1/25 : ℚ) < 1/20) :=
  ⟨by decide, by norm_num⟩

/-- Claim C4 (amended): for every input with `minCutInterval ≥ 0.1` (the default is
0.8) on which `generateRandomCuts` returns normally, every returned cut's time
lies in `[startTime + 0.05, endTime)`. -/
theorem C4_bounds (s e : ℚ) (pc : ℤ) (beats : List BeatMarker) (m : ℚ) (pr : Bool)
    (l : List CutMarker) (hm : 1/10 ≤ m)
    (hok : generateRandomCuts s e pc beats m pr = .ok l) :
    ∀ c ∈ l, s + 0.05 ≤ c.time ∧ c.time < e := by
  by_cases h2 : pc < 2
  · rw [generateRandomCuts, if_pos h2] at hok
    rw [← Except.ok.inj hok]
    simp
  by_cases hdur : e - s < (((pc - 1).toNat : ℚ)) * m
  · rw [generateRandomCuts, if_neg h2, if_pos hdur] at hok
    rw [← Except.ok.inj hok]
    simp
  have hn1 : 1 ≤ (pc - 1).toNat := by omega
  have hncast : (1:ℚ) ≤ (((pc - 1).toNat : ℚ)) := by exact_mod_cast hn1
  have hdur' : (((pc - 1).toNat : ℚ)) * m ≤ e - s := not_lt.1 hdur
  have hse : s + 0.05 < e := by
    have h5 : (0.05:ℚ) = 1/20 := by norm_num
    rw [h5]
    nlinarith [mul_le_mul_of_nonneg_right hncast (by linarith : (0:ℚ) ≤ m)]
  by_cases hav : availableBeats s e beats = []
  · rw [generateRandomCuts, if_neg h2, if_neg hdur, if_pos hav] at hok
    rw [← Except.ok.inj hok]
    exact generateEquidistantCuts_bounds hm hn1 hdur'
  · rw [generateRandomCuts_eq_mainPath h2 hdur hav] at hok
    obtain ⟨sel, hbf, hleq⟩ := mainPath_ok hok
    have hb : ∀ b ∈ availableBeats s e beats, s < b.time ∧ b.time < e :=
      fun b hbm => mem_availableBeats hbm
    have hlow := backfillCuts_lower s (e - s) m ((pc - 1).toNat) (availableBeats s e beats)
      ((pc - 1).toNat) _ sel
      (selectedAfterWalk_lower (e - s) ((pc - 1).toNat) m hb) hbf
    have hup := backfillCuts_upper s (e - s) m e ((pc - 1).toNat) (availableBeats s e beats)
      hb hse ((pc - 1).toNat) _ sel
      (selectedAfterWalk_upper (e - s) ((pc - 1).toNat) m hb hse) hbf
    exact final_lower_of_sel (P := fun t => s + 0.05 ≤ t ∧ t < e) hleq
      (fun x hx => ⟨hlow x hx, hup x hx⟩)

/-- Claim C4 witness: the first cut of a successful concrete run lies in
`[startTime + 0.05, endTime)`. -/
theorem C4_witness :
    (0:ℚ) + 0.05 ≤ ((⟨1, 99/50, "#3B82F6", 1⟩ : CutMarker)).time ∧
      ((⟨1, 99/50, "#3B82F6", 1⟩ : CutMarker)).time < 10 :=
  C4_bounds 0 10 3 [⟨2, 1/2, BeatType.strong⟩, ⟨7, 1/2, BeatType.strong⟩] (4/5) true
    [⟨1, 99/50, "#3B82F6", 1⟩, ⟨0, 139/20, "#F97316", 1⟩]
    (by norm_num) (by decide) ⟨1, 99/50, "#3B82F6", 1⟩ (by decide)

/-- Claim C5 counterexample: on a declined input (`planCount = 5`, active duration
`3 < 4 · 0.8`) the engine returns the empty list even though one drop was
detected in the active region and `cutsNeeded = 4 ≥ 1` drop: its post-offset
time appears in no returned cut. -/
theorem C5_counterexample :
    generateRandomCuts 0 3 5 [⟨1/2, 1/2, BeatType.strong⟩, ⟨2, 1/2, BeatType.strong⟩]
        (4/5) true = .ok [] ∧
      detectDrops (availableBeats 0 3
          [⟨1/2, 1/2, BeatType.strong⟩, ⟨2, 1/2, BeatType.strong⟩]) =
        [⟨2, 1/2, BeatType.strong, true, 3/2⟩] ∧
      max ((0:ℚ) + 0.05) (2 - 0.05) ∉ (([] : List CutMarker).map fun c => c.time) :=
  ⟨by decide, by decide, by simp⟩

/-- Claim C5 (amended): on every non-declining input (`planCount ≥ 2`, active
duration `≥ (planCount − 1) · minCutInterval`) on which `generateRandomCuts`
returns normally, and whose detected drop count is at most `planCount − 1`,
every detected drop appears in the result at its post-offset time
`max(startTime + 0.05, dropTime − 0.05)`. -/
theorem C5_drop_inclusion (s e : ℚ) (pc : ℤ) (beats : List BeatMarker) (m : ℚ) (pr : Bool)
    (l : List CutMarker) (h2 : 2 ≤ pc) (hdur : ((pc : ℚ) - 1) * m ≤ e - s)
    (hcount : (detectDrops (availableBeats s e beats)).length ≤ (pc - 1).toNat)
    (hok : generateRandomCuts s e pc beats m pr = .ok l) :
    ∀ d ∈ detectDrops (availableBeats s e beats),
      max (s + 0.05) (d.time - 0.05) ∈ l.map (fun c => c.time) := by
  intro d hd
  have hav : ¬ availableBeats s e beats = [] := by
    intro hnil
    rw [hnil] at hd
    simp [detectDrops, strongOnly] at hd
  have h2' : ¬ pc < 2 := by omega
  have hcast : (((pc - 1).toNat : ℚ)) = (pc : ℚ) - 1 := by
    have h := Int.toNat_of_nonneg (a := pc - 1) (by omega)
    exact_mod_cast h
  have hdur' : ¬ e - s < (((pc - 1).toNat : ℚ)) * m := by
    rw [hcast]
    exact not_lt.2 hdur
  rw [generateRandomCuts_eq_mainPath h2' hdur' hav] at hok
  obtain ⟨sel, hbf, hleq⟩ := mainPath_ok hok
  have hperm := forcedOf_perm s e (e - s) beats
  have hlenf : (forcedOf s e (e - s) (availableBeats s e beats)).length ≤ (pc - 1).toNat := by
    rw [hperm.length_eq, List.length_map]
    exact hcount
  have hinit : max (s + 0.05) (d.time - 0.05) ∈
      ((addForcedDrops (pc - 1).toNat (forcedOf s e (e - s) (availableBeats s e beats))
        []).map fun c => c.time) := by
    rw [addForcedDrops_eq]
    simp only [List.nil_append, List.length_nil, Nat.sub_zero]
    rw [mkCutsFrom_map_time, List.take_of_length_le hlenf]
    exact List.mem_map.2 ⟨mkDropCand s d, hperm.mem_iff.2 (List.mem_map_of_mem _ hd), rfl⟩
  obtain ⟨suf, hw⟩ := walkCandidates_append (pc - 1).toNat m
    (candidatesOf s e (e - s) (availableBeats s e beats))
    (addForcedDrops (pc - 1).toNat (forcedOf s e (e - s) (availableBeats s e beats)) [])
  have hSW : max (s + 0.05) (d.time - 0.05) ∈
      ((selectedAfterWalk s e (e - s) (pc - 1).toNat m (availableBeats s e beats)).map
        fun c => c.time) := by
    unfold selectedAfterWalk
    rw [hw, List.map_append]
    exact List.mem_append_left _ hinit
  obtain ⟨suf2, hb2⟩ := backfillCuts_grows s (e - s) m (pc - 1).toNat
    (availableBeats s e beats) (pc - 1).toNat _ sel hbf
  have hsel : max (s + 0.05) (d.time - 0.05) ∈ (sel.map fun c => c.time) := by
    rw [hb2, List.map_append]
    exact List.mem_append_left _ hSW
  exact final_time_mem_of_sel hleq hsel

/-- Claim C5 witness: the detected drop at `t = 7` appears post-offset (at `6.95`)
in the returned list of a successful concrete run. -/
theorem C5_witness :
    max ((0:ℚ) + 0.05) (7 - 0.05) ∈
      (([⟨1, 99/50, "#3B82F6", 1⟩, ⟨0, 139/20, "#F97316", 1⟩] : List CutMarker).map
        fun c => c.time) :=
  C5_drop_inclusion 0 10 3 [⟨2, 1/2, BeatType.strong⟩, ⟨7, 1/2, BeatType.strong⟩] (4/5) true
    [⟨1, 99/50, "#3B82F6", 1⟩, ⟨0, 139/20, "#F97316", 1⟩]
    (by norm_num) (by norm_num) (by decide) (by decide)
    ⟨7, 1/2, BeatType.strong, true, 5⟩ (by decide)

/-- Claim C6 counterexample: with `minCutInterval = 0` and two (ascending,
duplicate-time) strong beats at `t = 2`, the returned list has two cuts at the
same time `1.98` — not strictly sorted. -/
theorem C6_counterexample :
    generateRandomCuts 0 10 3 [⟨2, 1/2, BeatType.strong⟩, ⟨2, 1/2, BeatType.strong⟩] 0 true =
        .ok [⟨0, 99/50, "#F97316", 3/10⟩, ⟨1, 99/50, "#3B82F6", 1⟩] ∧
      ¬ List.Pairwise (fun a b : CutMarker => a.time < b.time)
        ([⟨0, 99/50, "#F97316", 3/10⟩, ⟨1, 99/50, "#3B82F6", 1⟩] : List CutMarker) :=
  ⟨by decide, by decide⟩

/-- Claim C6 (amended): for every input with ascending `beatMarkers` and
`minCutInterval ≥ 0.05` (the default is 0.8) on which `generateRandomCuts`
returns normally, the returned list is strictly sorted ascending by time. -/
theorem C6_strict_sorted (s e : ℚ) (pc : ℤ) (beats : List BeatMarker) (m : ℚ) (pr : Bool)
    (l : List CutMarker)
    (hsorted : List.Pairwise (fun a b : BeatMarker => a.time ≤ b.time) beats)
    (hm : 1/20 ≤ m)
    (hok : generateRandomCuts s e pc beats m pr = .ok l) :
    List.Pairwise (fun a b : CutMarker => a.time < b.time) l := by
  by_cases h2 : pc < 2
  · rw [generateRandomCuts, if_pos h2] at hok
    rw [← Except.ok.inj hok]
    simp
  by_cases hdur : e - s < (((pc - 1).toNat : ℚ)) * m
  · rw [generateRandomCuts, if_neg h2, if_pos hdur] at hok
    rw [← Except.ok.inj hok]
    simp
  by_cases hav : availableBeats s e beats = []
  · rw [generateRandomCuts, if_neg h2, if_neg hdur, if_pos hav] at hok
    rw [← Except.ok.inj hok]
    exact generateEquidistantCuts_strict (by linarith) (not_lt.1 hdur) (by omega)
  · rw [generateRandomCuts_eq_mainPath h2 hdur hav] at hok
    obtain ⟨sel, hbf, hleq⟩ := mainPath_ok hok
    have hb : ∀ b ∈ availableBeats s e beats, s < b.time ∧ b.time < e :=
      fun b hbm => mem_availableBeats hbm
    have hne_sel := backfillCuts_distinct s (e - s) m ((pc - 1).toNat)
      (availableBeats s e beats) hm (fun b hbm => (mem_availableBeats hbm).1)
      ((pc - 1).toNat) _ sel
      (selectedAfterWalk_lower (e - s) ((pc - 1).toNat) m hb)
      (selectedAfterWalk_distinct (e - s) ((pc - 1).toNat) hsorted (by linarith)) hbf
    have hne_l : List.Pairwise (fun a b : CutMarker => a.time ≠ b.time) l :=
      final_pairwise_of_sel (R := fun x y => x ≠ y) (fun h => Ne.symm h) hleq hne_sel
    have hsorted_l : List.Pairwise cutTimeLE l := by
      rw [hleq]
      exact optimizeCutDurations_sorted _ e
    refine (hsorted_l.and hne_l).imp ?_
    intro a b hab
    exact lt_of_le_of_ne hab.1 hab.2

/-- Claim C6 witness: a successful concrete run returns a strictly ascending list. -/
theorem C6_witness :
    List.Pairwise (fun a b : CutMarker => a.time < b.time)
      ([⟨1, 99/50, "#3B82F6", 1⟩, ⟨0, 139/20, "#F97316", 1⟩] : List CutMarker) :=
  C6_strict_sorted 0 10 3 [⟨2, 1/2, BeatType.strong⟩, ⟨7, 1/2, BeatType.strong⟩] (4/5) true
    [⟨1, 99/50, "#3B82F6", 1⟩, ⟨0, 139/20, "#F97316", 1⟩]
    (by decide) (by norm_num) (by decide)

/-- Claim C7 counterexample: the claim (grid does not resynchronise;
`expectedNextMeasure += averageMeasureDuration`) would make `detectMeasures`
equal to the spec-worded variant `detectMeasuresSpecGrid`; on strong beats at
`0, 1, 2.1, 3.1` (padded with weak beats) the two differ — the source sets
`expectedNextMeasure = beat.time + averageMeasureDuration`, changing the third
accepted measure's confidence (29/31 vs 30/31). -/
theorem C7_counterexample :
    detectMeasures
        [⟨0, 1/2, BeatType.strong⟩, ⟨1, 1/2, BeatType.strong⟩, ⟨21/10, 1/2, BeatType.strong⟩,
          ⟨31/10, 1/2, BeatType.strong⟩, ⟨4, 1/2, BeatType.weak⟩, ⟨5, 1/2, BeatType.weak⟩,
          ⟨6, 1/2, BeatType.weak⟩, ⟨7, 1/2, BeatType.weak⟩] ≠
      detectMeasuresSpecGrid
        [⟨0, 1/2, BeatType.strong⟩, ⟨1, 1/2, BeatType.strong⟩, ⟨21/10, 1/2, BeatType.strong⟩,
          ⟨31/10, 1/2, BeatType.strong⟩, ⟨4, 1/2, BeatType.weak⟩, ⟨5, 1/2, BeatType.weak⟩,
          ⟨6, 1/2, BeatType.weak⟩, ⟨7, 1/2, BeatType.weak⟩] := by decide

/-- Claim C7 (amended): in the measure-grid walk, when a strong beat is accepted the
next expected downbeat is the ACCEPTED BEAT'S TIME plus
`averageMeasureDuration` (the grid resynchronises to each accepted beat):
every two consecutive accepted measures `m1, m2` satisfy
`|m2.startTime − (m1.startTime + avg)| < avg·0.3` and `m2`'s confidence is
computed from that resynchronised slot. -/
theorem C7_walk_resync (avg bpm e0 : ℚ) (beats : List BeatMarker) :
    List.Chain' (fun m1 m2 : MeasureInfo =>
        |m2.startTime - (m1.startTime + avg)| < avg * 0.3 ∧
        m2.confidence = max 0.1 (1 - |m2.startTime - (m1.startTime + avg)| / avg))
      (measureWalk avg bpm e0 beats) := by
  induction beats generalizing e0 with
  | nil => simp [measureWalk]
  | cons b rest ih =>
    simp only [measureWalk]
    split
    · rw [List.chain'_cons']
      refine ⟨?_, ih (b.time + avg)⟩
      intro y hy
      exact measureWalk_head avg bpm (b.time + avg) rest y hy
    · exact ih e0

/-- Claim C8: `generateRandomCuts` returns the empty list exactly in the declining
cases — `planCount < 2`, or active duration shorter than
`(planCount − 1) · minCutInterval` — and the decline is signalled by the
return value (those paths precede the one that can raise). -/
theorem C8_empty_iff (s e : ℚ) (pc : ℤ) (beats : List BeatMarker) (m : ℚ) (pr : Bool) :
    generateRandomCuts s e pc beats m pr = .ok [] ↔
      pc < 2 ∨ e - s < ((pc : ℚ) - 1) * m := by
  constructor
  · intro h
    by_cases h2 : pc < 2
    · exact Or.inl h2
    · right
      have hcast : (((pc - 1).toNat : ℚ)) = (pc : ℚ) - 1 := by
        have hh := Int.toNat_of_nonneg (a := pc - 1) (by omega)
        exact_mod_cast hh
      by_cases hdur : e - s < (((pc - 1).toNat : ℚ)) * m
      · rwa [hcast] at hdur
      · exfalso
        have hlen := generateRandomCuts_ok_length h2 hdur h
        simp only [List.length_nil] at hlen
        omega
  · intro h
    rcases h with h2 | hdur
    · rw [generateRandomCuts, if_pos h2]
    · by_cases h2 : pc < 2
      · rw [generateRandomCuts, if_pos h2]
      · have hcast : (((pc - 1).toNat : ℚ)) = (pc : ℚ) - 1 := by
          have hh := Int.toNat_of_nonneg (a := pc - 1) (by omega)
          exact_mod_cast hh
        rw [generateRandomCuts, if_neg h2, if_pos (by rw [hcast]; exact hdur)]

/-- Claim C9: `optimizeCutDurations` is idempotent: one application sorts by time
and clamps each duration to `min(duration, max(0.3, gapToNext − 0.1))`; a
second application sorts an already-sorted list (stably, hence unchanged) and
re-clamps with the same bound, a no-op. -/
theorem C9_optimize_idempotent (cuts : List CutMarker) (endTime : ℚ) :
    optimizeCutDurations (optimizeCutDurations cuts endTime) endTime =
      optimizeCutDurations cuts endTime := by
  unfold optimizeCutDurations
  rw [List.Sorted.insertionSort_eq
    (optimizeSorted_sorted endTime (List.sorted_insertionSort cutTimeLE cuts))]
  exact optimizeSorted_idem endTime _

/-- Claim C10: `optimizeCutDurations` returns the input cuts reordered ascending by
time, of the same length, each keeping its `id`, `time` and `color` (only
`duration` may change): the duration-stripped projections form a permutation
of the input's. -/
theorem C10_optimize_frame (cuts : List CutMarker) (endTime : ℚ) :
    ((optimizeCutDurations cuts endTime).map stripDuration).Perm
        (cuts.map stripDuration) ∧
      List.Pairwise (fun a b : CutMarker => a.time ≤ b.time)
        (optimizeCutDurations cuts endTime) ∧
      (optimizeCutDurations cuts endTime).length = cuts.length :=
  ⟨optimizeCutDurations_strip_perm cuts endTime,
   optimizeCutDurations_sorted cuts endTime,
   optimizeCutDurations_length cuts endTime⟩

end Snapcut
